import Mathlib

/-!
Shallow embedding of `src/lib/unrolled_list.h` (class `unrolled_list<T, NodeMaxSize,
Allocator>`), a doubly linked chain of fixed-capacity nodes.

Modelling conventions:

* The chain of nodes reachable from `head` is modelled as `nodes : List (List α)`:
  one inner list per `Node`, holding exactly the constructed elements
  `data[0 .. size)` of that node.  A node's `size` field is the length of its
  inner list; `head` is the first entry, `tail` the last, and the `prev`/`next`
  pointers are the list adjacencies.  `head == nullptr` is `nodes = []`.
* The cached member `size_` is the separate field `sz`; the source maintains it
  independently of the per-node counts, so the model does too.
* An iterator (`iterator_impl`) stores a node pointer and an in-node position;
  it is modelled as `Option (Nat × Nat)`: `some (i, p)` is (pointer to the
  chain's `i`-th node, `current_pos = p`) and `none` is the null node pointer
  with position `0`, which is exactly `end()` (`iterator(nullptr, 0)`).
  Iterator equality in the source compares node pointer and position, which is
  equality of this option type.
* Operations whose C++ execution is undefined behaviour (destroying or reading
  an unconstructed slot, writing past a node's `NodeMaxSize` buffer, following
  a null pointer), or whose pointer relinking leaves the chain in a shape the
  node-list model cannot denote (see `emplaceBack`), yield `none`.  Every
  theorem below either stays inside defined executions or exhibits such an
  execution explicitly.
* `size_` arithmetic is on `Nat`; in every state our theorems touch, `size_`
  decrements are applied only when `size_ > 0`, so `Nat` truncation and
  `size_t` agree.

The capacity parameter `C` is the template argument `NodeMaxSize` (default 10).
-/

namespace Unrolled

/-- Container state: the chain of nodes from `head` to `tail` (each node the
list of its constructed elements) plus the cached element count `size_`. -/
structure UL (α : Type) where
  nodes : List (List α)
  sz : Nat
deriving DecidableEq, Repr

/-- `unrolled_list()` : `head = tail = nullptr`, `size_ = 0`. -/
def emptyUL (α : Type) : UL α := ⟨[], 0⟩

/-- Total number of constructed elements on the chain (the sum of every node's
`size`); the source caches this in `size_`. -/
def totalLen {α : Type} (ns : List (List α)) : Nat :=
  (ns.map List.length).sum

/-- `Node::insert(pos, value)`: shift `data[pos..size)` one slot up, construct
`value` at `pos`.  On the element list this is insertion at index `pos`. -/
def nodeInsert {α : Type} (l : List α) (pos : Nat) (v : α) : List α :=
  l.take pos ++ v :: l.drop pos

/-- `Node::erase(pos)`: destroy `data[pos]`, shift `data(pos..size)` one slot
down.  On the element list this is removal of index `pos`. -/
def nodeErase {α : Type} (l : List α) (pos : Nat) : List α :=
  l.take pos ++ l.drop (pos + 1)

/-- The last node's element list (`tail->...`); only meaningful for a nonempty
chain. -/
def lastNode {α : Type} (ns : List (List α)) : List α :=
  ns.getLastD []

/-- `tail->emplace_back(v)`: append `v` to the last node of the chain. -/
def appendLast {α : Type} (v : α) : List (List α) → List (List α)
  | [] => []
  | [l] => [l ++ [v]]
  | l :: l₂ :: rest => l :: appendLast v (l₂ :: rest)

/-- Body of `emplace_back` once a head node exists: if the tail node is full
(`tail->is_full()`), `create_node(tail, nullptr)` links a fresh empty node as
the new tail; then `tail->emplace_back` constructs the value at `data[size]`.
Writing at `data[size]` requires `size < NodeMaxSize`; otherwise the store is
past the node's buffer (undefined), so the model yields `none`. -/
def tailAppend {α : Type} (C : Nat) (v : α) (ns : List (List α)) :
    Option (List (List α)) :=
  let ns' := if (lastNode ns).length = C then ns ++ [[]] else ns
  if (lastNode ns').length < C then some (appendLast v ns') else none

/-- `emplace_back(v)` (and `push_back`, which delegates to it).
`if (empty()) create_node();` — when `size_ = 0` and no node exists this links
the first node.  When `size_ = 0` but a drained node is still alive (the state
`erase`/`pop_back` leave behind), `create_node()` keeps `head` pointing at the
old node while making the unlinked fresh node `tail`; that execution is
defined but leaves the single-chain state space of `UL`, so this restricted
operation yields `none` and the full-state operation `emplaceBackX` below
continues it.  A `size_ ≠ 0` state with no nodes would dereference the null
`tail`: `none`. -/
def emplaceBack {α : Type} (C : Nat) (v : α) (s : UL α) : Option (UL α) :=
  match s.nodes with
  | [] =>
    if s.sz = 0 then (tailAppend C v [[]]).map (fun ns => ⟨ns, s.sz + 1⟩) else none
  | _ :: _ =>
    if s.sz = 0 then none
    else (tailAppend C v s.nodes).map (fun ns => ⟨ns, s.sz + 1⟩)

/-- Body of `emplace_front` once a head node exists: if the head is full,
`create_node(nullptr, head)` links a fresh node before it and it becomes the
new head; then `head->insert(0, v)`.  `Node::insert` constructs at `data[0]`
after shifting `size` elements up, which needs `size < NodeMaxSize`;
otherwise it writes past the buffer (undefined): `none`. -/
def frontInsert {α : Type} (C : Nat) (v : α) (ns : List (List α)) :
    Option (List (List α)) :=
  if (ns.headD []).length = C then
    if 0 < C then some ([v] :: ns) else none
  else
    match ns with
    | [] => none
    | h :: t => if h.length < C then some ((v :: h) :: t) else none

/-- `emplace_front(v)` (and `push_front`).  The `if (empty()) create_node();`
branch behaves exactly as in `emplaceBack`: from the drained leftover-node
state it detaches `tail` from the chain, a defined execution that leaves the
single-chain state space of `UL`; this restricted operation yields `none`
there and `emplaceFrontX` below continues it. -/
def emplaceFront {α : Type} (C : Nat) (v : α) (s : UL α) : Option (UL α) :=
  match s.nodes with
  | [] =>
    if s.sz = 0 then (frontInsert C v [[]]).map (fun ns => ⟨ns, s.sz + 1⟩) else none
  | _ :: _ =>
    if s.sz = 0 then none
    else (frontInsert C v s.nodes).map (fun ns => ⟨ns, s.sz + 1⟩)

/-- Drop the last element of the last node (the effect of
`destroy(tail->data[size-1]); --tail->size;`). -/
def dropLastElem {α : Type} : List (List α) → List (List α)
  | [] => []
  | [l] => [l.dropLast]
  | l :: l₂ :: rest => l :: dropLastElem (l₂ :: rest)

/-- `pop_back()`.  `if (empty()) return;` makes it the identity whenever
`size_ = 0`.  Otherwise it destroys `tail->data[tail->size - 1]` — undefined
if the tail node has no constructed element (`tail->size = 0` indexes
`data[SIZE_MAX]`) or if `tail` is null — then unlinks the tail node if that
drained it and it is not also the head node. -/
def popBack {α : Type} (s : UL α) : Option (UL α) :=
  if s.sz = 0 then some s
  else if s.nodes.isEmpty then none
  else if (lastNode s.nodes).isEmpty then none
  else
    if (lastNode (dropLastElem s.nodes)).isEmpty ∧ 2 ≤ (dropLastElem s.nodes).length
    then some ⟨(dropLastElem s.nodes).dropLast, s.sz - 1⟩
    else some ⟨dropLastElem s.nodes, s.sz - 1⟩

/-- `pop_front()`.  `if (empty()) return;` makes it the identity whenever
`size_ = 0`.  Otherwise it destroys `head->data[0]` — undefined when the head
node holds no constructed element or `head` is null — shifts the survivors
down, and if the head drained, unlinks it and promotes its successor
(`tail = nullptr` if none). -/
def popFront {α : Type} (s : UL α) : Option (UL α) :=
  if s.sz = 0 then some s
  else
    match s.nodes with
    | [] => none
    | [] :: _ => none
    | (_ :: h) :: t =>
      some ⟨if h.isEmpty then t else h :: t, s.sz - 1⟩

/-- Iterator value: `some (i, p)` is `iterator(&node_i, p)`, `none` is
`iterator(nullptr, 0) = end()`. -/
abbrev Iter : Type := Option (Nat × Nat)

/-- `iterator::operator*` / the element a cursor addresses: `data[p]` of node
`i`, when that slot holds a constructed element. -/
def derefAt {α : Type} (ns : List (List α)) (c : Nat × Nat) : Option α :=
  (ns.get? c.1).bind (fun l => l.get? c.2)

/-- `iterator::operator++` on an in-node cursor `(i, p)`:
`if (current_pos + 1 < current_node->size) ++current_pos; else
{current_node = current_node->next; current_pos = 0;}`.
Reading `current_node->size` through a dangling node pointer is undefined:
outer `none`.  The result `none` is reaching `end()`. -/
def iterStep {α : Type} (ns : List (List α)) (c : Nat × Nat) : Option Iter :=
  match ns.get? c.1 with
  | none => none
  | some l =>
    some (if c.2 + 1 < l.length then some (c.1, c.2 + 1)
          else if c.1 + 1 < ns.length then some (c.1 + 1, 0) else none)

/-- `iterator::operator--`: on `end()` the source executes
`current_node = current_node->prev` with `current_node == nullptr` — a null
dereference, hence `none`.  From `(i, 0)` it moves to the previous node (or to
`iterator(nullptr, 0)` when there is none: `current_pos = current_node ?
current_node->size - 1 : 0`); from `(i, p+1)` it decrements the position. -/
def iterDec {α : Type} (ns : List (List α)) : Iter → Option Iter
  | none => none
  | some (i, p) =>
    if p > 0 then some (some (i, p - 1))
    else if i = 0 then some none
    else
      match ns.get? (i - 1) with
      | none => none
      | some l => some (some (i - 1, l.length - 1))

/-- `begin()` : `iterator(head, 0)`; with `head == nullptr` this is the same
value as `end()`. -/
def beginIt {α : Type} (ns : List (List α)) : Iter :=
  match ns with
  | [] => none
  | _ :: _ => some (0, 0)

/-- The values a full forward traversal `for (it = begin(); it != end(); ++it)`
reads: at each visited position the constructed element there, if any (a
visited slot of a drained node holds none and its dereference is undefined;
the walk itself only reads node sizes and `next` pointers).  Fuel-indexed;
every lemma supplies enough fuel. -/
def travFrom {α : Type} : Nat → List (List α) → Iter → List α
  | 0, _, _ => []
  | _ + 1, _, none => []
  | fuel + 1, ns, some c =>
    match iterStep ns c with
    | none => []
    | some it =>
      match derefAt ns c with
      | some x => x :: travFrom fuel ns it
      | none => travFrom fuel ns it

/-- The number of loop iterations of the same traversal (positions visited
between `begin()` and `end()`, whether or not the slot holds an element). -/
def visitCount {α : Type} : Nat → List (List α) → Iter → Nat
  | 0, _, _ => 0
  | _ + 1, _, none => 0
  | fuel + 1, ns, some c =>
    match iterStep ns c with
    | none => 1
    | some it => 1 + visitCount fuel ns it

/-- `erase(pos)` for an in-node cursor `(i, p)`:
`node->erase(pos_in_node); --size_;` then, if the node drained and is not the
head, `destroy_node` unlinks it and the result is `iterator(next_node, 0)`
(the node captured `next` before unlinking; `none` when there was no next
node); otherwise the result is
`iterator(node, pos_in_node < node->size ? pos_in_node : 0)`.
`Node::erase` destroys `data[p]`, which must be a constructed element
(`p < size`); otherwise undefined, and the shift loop bound `size - 1`
underflows on a drained node: `none`. -/
def eraseAt {α : Type} (s : UL α) (i p : Nat) : Option (UL α × Iter) :=
  match s.nodes.get? i with
  | none => none
  | some l =>
    if p < l.length then
      let l' := nodeErase l p
      if l'.length = 0 ∧ i ≠ 0 then
        let ns := s.nodes.eraseIdx i
        some (⟨ns, s.sz - 1⟩, if i < ns.length then some (i, 0) else none)
      else
        some (⟨s.nodes.set i l', s.sz - 1⟩,
              some (i, if p < l'.length then p else 0))
    else none

/-- `erase(pos)` on a general cursor; `erase` at `end()` reads
`pos.get_node()->erase(...)` through a null pointer: undefined. -/
def eraseIter {α : Type} (s : UL α) : Iter → Option (UL α × Iter)
  | none => none
  | some (i, p) => eraseAt s i p

/-- `erase(first, last)`: `while (first != last) first = erase(first);` then
return `first`.  Fuel-indexed (`none` on exhaustion; theorems supply enough).
Node identity is positional in this model; that matches pointer identity
whenever `last` is the end cursor (the case our theorems use), since erasures
at or after `first` never re-index `end()`. -/
def eraseRange {α : Type} : Nat → UL α → Iter → Iter → Option (UL α × Iter)
  | 0, _, _, _ => none
  | fuel + 1, s, first, last =>
    if first = last then some (s, first)
    else
      match eraseIter s first with
      | none => none
      | some (s', it) => eraseRange fuel s' it last

/-- `emplace(pos, v)` (and `insert(pos, v)`, which delegates to it).

* `pos == end()`: `emplace_back(v)`, result `iterator(tail, tail->size - 1)`.
* node not full (`size < NodeMaxSize`): `node->insert(p, v); ++size_;`, result
  `iterator(node, p)`.  The shift loop needs `p ≤ size`; a larger `p` would
  move unconstructed slots: undefined.
* node full (`size = NodeMaxSize`): split.  `create_node(node, node->next)`
  links a fresh node right after; the upper half `data[C/2 .. C)` moves into
  it in order; `node->size = C/2`, `new_node->size = C - C/2`.  Then the value
  is inserted at `p` into the lower node if `p < C/2`, else at `p - C/2` into
  the new node.  Inserting into the new node needs `C - C/2 < C` (i.e.
  `C/2 ≥ 1`) and `p ≤ C`; for `C = 1` (or `p > C`) the insert writes past the
  new node's buffer: undefined.
* a node with `size > NodeMaxSize` cannot arise without an earlier buffer
  overflow; `Node::insert` there writes out of bounds: undefined. -/
def emplace {α : Type} (C : Nat) (s : UL α) (pos : Iter) (v : α) :
    Option (UL α × Iter) :=
  match pos with
  | none =>
    (emplaceBack C v s).map
      (fun s' => (s', some (s'.nodes.length - 1, (lastNode s'.nodes).length - 1)))
  | some (i, p) =>
    match s.nodes.get? i with
    | none => none
    | some l =>
      if l.length < C then
        if p ≤ l.length then
          some (⟨s.nodes.set i (nodeInsert l p v), s.sz + 1⟩, some (i, p))
        else none
      else if l.length = C then
        let half := C / 2
        let lower := l.take half
        let upper := l.drop half
        if p < half then
          some (⟨s.nodes.take i ++ [nodeInsert lower p v, upper] ++ s.nodes.drop (i + 1),
                 s.sz + 1⟩, some (i, p))
        else
          if 1 ≤ half ∧ p ≤ C then
            some (⟨s.nodes.take i ++ [lower, nodeInsert upper (p - half) v] ++ s.nodes.drop (i + 1),
                   s.sz + 1⟩, some (i + 1, p - half))
          else none
      else none

/-- `clear()`: destroy every node, `head = tail = nullptr`, `size_ = 0`. -/
def clearUL {α : Type} (_ : UL α) : UL α := ⟨[], 0⟩

/-- `std::equal(lhs.begin(), lhs.end(), rhs.begin())` as executed by
`operator==`: walk the left range, dereferencing both cursors at every
position and advancing both.  Dereferencing the right cursor once it is past
its container (null node pointer) or reading an unconstructed slot of a
drained node is undefined: `none`. -/
def stdEqual {α : Type} [DecidableEq α] :
    Nat → List (List α) → List (List α) → Iter → Iter → Option Bool
  | 0, _, _, _, _ => none
  | fuel + 1, ns, ms, it1, it2 =>
    match it1 with
    | none => some true
    | some c1 =>
      match it2 with
      | none => none
      | some c2 =>
        match derefAt ns c1, derefAt ms c2 with
        | some x, some y =>
          if x = y then
            match iterStep ns c1, iterStep ms c2 with
            | some it1', some it2' => stdEqual fuel ns ms it1' it2'
            | _, _ => none
          else some false
        | _, _ => none

/-- `operator==(lhs, rhs)`: `if (lhs.size() != rhs.size()) return false;
return std::equal(lhs.begin(), lhs.end(), rhs.begin());`. -/
def ulEq {α : Type} [DecidableEq α] (s t : UL α) : Option Bool :=
  if s.sz ≠ t.sz then some false
  else stdEqual (s.sz + s.nodes.length + 1) s.nodes t.nodes
         (beginIt s.nodes) (beginIt t.nodes)

/-- `operator!=(lhs, rhs)` : `!(lhs == rhs)`. -/
def ulNe {α : Type} [DecidableEq α] (s t : UL α) : Option Bool :=
  (ulEq s t).map (fun b => !b)

/-- `unrolled_list(first, last)` (range constructor) and the
initializer-list constructor: start empty and `push_back` each element. -/
def ofList {α : Type} (C : Nat) (l : List α) : Option (UL α) :=
  l.foldl (fun acc v => acc.bind (emplaceBack C v)) (some (emptyUL α))

/-! ### Basic facts about the list helpers -/

theorem totalLen_nil {α : Type} : totalLen ([] : List (List α)) = 0 := rfl

theorem totalLen_cons {α : Type} (l : List α) (ns : List (List α)) :
    totalLen (l :: ns) = l.length + totalLen ns := by
  simp [totalLen]

theorem totalLen_append {α : Type} (ns ms : List (List α)) :
    totalLen (ns ++ ms) = totalLen ns + totalLen ms := by
  simp [totalLen]

theorem length_flatten_eq_totalLen {α : Type} (ns : List (List α)) :
    ns.flatten.length = totalLen ns := by
  simp [totalLen, List.length_flatten]

theorem length_nodeInsert {α : Type} (l : List α) (p : Nat) (v : α) (h : p ≤ l.length) :
    (nodeInsert l p v).length = l.length + 1 := by
  simp [nodeInsert]
  omega

theorem length_nodeErase {α : Type} (l : List α) (p : Nat) (h : p < l.length) :
    (nodeErase l p).length = l.length - 1 := by
  simp [nodeErase]
  omega

theorem lastNode_cons_cons {α : Type} (l l₂ : List α) (rest : List (List α)) :
    lastNode (l :: l₂ :: rest) = lastNode (l₂ :: rest) := by
  simp [lastNode, List.getLastD_cons]

theorem lastNode_append_singleton {α : Type} (ns : List (List α)) (l : List α) :
    lastNode (ns ++ [l]) = l := by
  simp [lastNode]

theorem appendLast_eq {α : Type} (v : α) :
    ∀ ns : List (List α), ns ≠ [] →
      appendLast v ns = ns.dropLast ++ [lastNode ns ++ [v]]
  | [], h => absurd rfl h
  | [l], _ => by simp [appendLast, lastNode]
  | l :: l₂ :: rest, _ => by
    have ih := appendLast_eq v (l₂ :: rest) (by simp)
    simp [appendLast, ih, lastNode_cons_cons]

theorem dropLastElem_eq {α : Type} :
    ∀ ns : List (List α), ns ≠ [] →
      dropLastElem ns = ns.dropLast ++ [(lastNode ns).dropLast]
  | [], h => absurd rfl h
  | [l], _ => by simp [dropLastElem, lastNode]
  | l :: l₂ :: rest, _ => by
    have ih := dropLastElem_eq (l₂ :: rest) (by simp)
    simp [dropLastElem, ih, lastNode_cons_cons]

theorem dropLast_append_lastNode {α : Type} (ns : List (List α)) (h : ns ≠ []) :
    ns.dropLast ++ [lastNode ns] = ns := by
  have := List.dropLast_append_getLast h
  rw [show lastNode ns = ns.getLast h from ?_]
  · exact this
  · simp [lastNode, List.getLastD_eq_getLast?, List.getLast?_eq_getLast ns h]


/-! ### Splice and membership helpers -/

theorem take_cons_drop {β : Type} :
    ∀ (ns : List β) (i : Nat) (l : β), ns.get? i = some l →
      ns.take i ++ l :: ns.drop (i + 1) = ns
  | [], i, l, h => by simp [List.get?] at h
  | a :: t, 0, l, h => by simp [List.get?] at h; simp [h]
  | a :: t, i + 1, l, h => by
    simp only [List.get?] at h
    simpa [List.take, List.drop] using take_cons_drop t i l h

theorem totalLen_set {α : Type} :
    ∀ (ns : List (List α)) (i : Nat) (l l' : List α), ns.get? i = some l →
      totalLen (ns.set i l') + l.length = totalLen ns + l'.length
  | [], i, l, l', h => by simp [List.get?] at h
  | a :: t, 0, l, l', h => by
    simp [List.get?] at h
    subst h
    simp [totalLen_cons]
    omega
  | a :: t, i + 1, l, l', h => by
    simp only [List.get?] at h
    have := totalLen_set t i l l' h
    simp [totalLen_cons]
    omega

theorem totalLen_eraseIdx {α : Type} :
    ∀ (ns : List (List α)) (i : Nat) (l : List α), ns.get? i = some l →
      totalLen (ns.eraseIdx i) + l.length = totalLen ns
  | [], i, l, h => by simp [List.get?] at h
  | a :: t, 0, l, h => by
    simp [List.get?] at h
    subst h
    simp [totalLen_cons, List.eraseIdx]
    omega
  | a :: t, i + 1, l, h => by
    simp only [List.get?] at h
    have := totalLen_eraseIdx t i l h
    simp [totalLen_cons, List.eraseIdx]
    omega

theorem length_le_totalLen {α : Type} (ns : List (List α)) (i : Nat) (l : List α)
    (h : ns.get? i = some l) : l.length ≤ totalLen ns := by
  have := take_cons_drop ns i l h
  calc l.length ≤ totalLen (ns.take i) + (l.length + totalLen (ns.drop (i + 1))) := by omega
  _ = totalLen (ns.take i ++ l :: ns.drop (i + 1)) := by
      rw [totalLen_append, totalLen_cons]
  _ = totalLen ns := by rw [this]

theorem drop_one_take {β : Type} :
    ∀ (ns : List β) (i : Nat), (ns.take i).drop 1 = (ns.drop 1).take (i - 1)
  | [], i => by simp
  | a :: t, 0 => by simp
  | a :: t, i + 1 => by simp

theorem drop_one_dropLast {β : Type} :
    ∀ ns : List β, ns.dropLast.drop 1 = (ns.drop 1).dropLast
  | [] => rfl
  | [a] => rfl
  | a :: b :: t => by simp

theorem drop_one_eraseIdx {β : Type} :
    ∀ (ns : List β) (i : Nat), i ≠ 0 →
      (ns.eraseIdx i).drop 1 = (ns.drop 1).eraseIdx (i - 1)
  | [], i, h => by simp [List.eraseIdx]
  | a :: t, 0, h => absurd rfl h
  | a :: t, i + 1, _ => by simp [List.eraseIdx]

theorem drop_one_set {β : Type} :
    ∀ (ns : List β) (i : Nat) (l : β), i ≠ 0 →
      (ns.set i l).drop 1 = (ns.drop 1).set (i - 1) l
  | [], i, l, h => by simp
  | a :: t, 0, l, h => absurd rfl h
  | a :: t, i + 1, l, _ => by simp

theorem mem_of_mem_set {β : Type} :
    ∀ (ns : List β) (i : Nat) (l x : β), x ∈ ns.set i l → x ∈ ns ∨ x = l
  | [], i, l, x, h => by simp at h
  | a :: t, 0, l, x, h => by
    simp at h
    rcases h with h | h
    · right; exact h
    · left; simp [h]
  | a :: t, i + 1, l, x, h => by
    simp at h
    rcases h with h | h
    · left; simp [h]
    · rcases mem_of_mem_set t i l x h with h' | h'
      · left; simp [h']
      · right; exact h'

/-! ### Specifications of the container operations -/

theorem mem_of_mem_dropLast {β : Type} :
    ∀ (l : List β) (x : β), x ∈ l.dropLast → x ∈ l
  | [], x, h => by simp at h
  | [a], x, h => by simp at h
  | a :: b :: t, x, h => by
    rw [List.dropLast_cons₂, List.mem_cons] at h
    rcases h with h | h
    · simp [h]
    · exact List.mem_cons_of_mem a (mem_of_mem_dropLast (b :: t) x h)

theorem appendLast_concat {α : Type} (v : α) (ns : List (List α)) (l : List α) :
    appendLast v (ns ++ [l]) = ns ++ [l ++ [v]] := by
  rw [appendLast_eq v (ns ++ [l]) (by simp)]
  simp [lastNode_append_singleton]

theorem tailAppend_cases {α : Type} (C : Nat) (v : α) (ns ns' : List (List α))
    (h : tailAppend C v ns = some ns') (hne : ns ≠ []) :
    ((lastNode ns).length = C ∧ 0 < C ∧ ns' = ns ++ [[v]]) ∨
    ((lastNode ns).length < C ∧ ns' = ns.dropLast ++ [lastNode ns ++ [v]]) := by
  have hdef : tailAppend C v ns =
      (if (lastNode (if (lastNode ns).length = C then ns ++ [[]] else ns)).length < C
       then some (appendLast v (if (lastNode ns).length = C then ns ++ [[]] else ns))
       else none) := rfl
  rw [hdef] at h
  by_cases hC : (lastNode ns).length = C
  · rw [if_pos hC, lastNode_append_singleton] at h
    simp only [List.length_nil] at h
    by_cases h0 : 0 < C
    · rw [if_pos h0] at h
      left
      rw [appendLast_concat] at h
      exact ⟨hC, h0, by simpa using (Option.some.inj h).symm⟩
    · rw [if_neg h0] at h
      exact absurd h (by simp)
  · rw [if_neg hC] at h
    by_cases hlt : (lastNode ns).length < C
    · rw [if_pos hlt] at h
      right
      rw [appendLast_eq v ns hne] at h
      exact ⟨hlt, (Option.some.inj h).symm⟩
    · rw [if_neg hlt] at h
      exact absurd h (by simp)

theorem tailAppend_flatten {α : Type} (C : Nat) (v : α) (ns ns' : List (List α))
    (h : tailAppend C v ns = some ns') (hne : ns ≠ []) :
    ns'.flatten = ns.flatten ++ [v] := by
  rcases tailAppend_cases C v ns ns' h hne with ⟨_, _, rfl⟩ | ⟨_, rfl⟩
  · simp
  · conv_rhs => rw [← dropLast_append_lastNode ns hne]
    simp

theorem tailAppend_totalLen {α : Type} (C : Nat) (v : α) (ns ns' : List (List α))
    (h : tailAppend C v ns = some ns') (hne : ns ≠ []) :
    totalLen ns' = totalLen ns + 1 := by
  have hfl := tailAppend_flatten C v ns ns' h hne
  have h1 := length_flatten_eq_totalLen ns'
  have h2 := length_flatten_eq_totalLen ns
  rw [hfl, List.length_append, List.length_singleton] at h1
  omega

theorem tailAppend_ne_nil {α : Type} (C : Nat) (v : α) (ns ns' : List (List α))
    (h : tailAppend C v ns = some ns') (hne : ns ≠ []) : ns' ≠ [] := by
  rcases tailAppend_cases C v ns ns' h hne with ⟨_, _, rfl⟩ | ⟨_, rfl⟩ <;> simp

theorem tailAppend_wf {α : Type} (C : Nat) (v : α) (ns ns' : List (List α))
    (h : tailAppend C v ns = some ns') (hne : ns ≠ [])
    (hw : ∀ l ∈ ns.drop 1, l ≠ []) : ∀ l ∈ ns'.drop 1, l ≠ [] := by
  rcases tailAppend_cases C v ns ns' h hne with ⟨_, _, rfl⟩ | ⟨_, rfl⟩
  · intro l hl
    rw [List.drop_append_of_le_length (by cases ns <;> simp_all)] at hl
    rcases List.mem_append.1 hl with h' | h'
    · exact hw l h'
    · simp at h'
      simp [h']
  · intro l hl
    rcases hd : ns.dropLast with _ | ⟨d, ds⟩
    · rw [hd] at hl
      simp at hl
    · rw [hd] at hl
      rw [List.drop_append_of_le_length (by simp)] at hl
      rcases List.mem_append.1 hl with h' | h'
      · rw [← hd, drop_one_dropLast] at h'
        exact hw l (mem_of_mem_dropLast _ l h')
      · simp at h'
        simp [h']


theorem frontInsert_cases {α : Type} (C : Nat) (v : α) (ns ns' : List (List α))
    (h : frontInsert C v ns = some ns') (hne : ns ≠ []) :
    ∃ h0 t, ns = h0 :: t ∧
      ((h0.length = C ∧ 0 < C ∧ ns' = [v] :: h0 :: t) ∨
       (h0.length < C ∧ ns' = (v :: h0) :: t)) := by
  match ns, hne with
  | h0 :: t, _ =>
    refine ⟨h0, t, rfl, ?_⟩
    rw [frontInsert] at h
    simp only [List.headD_cons] at h
    by_cases hC : h0.length = C
    · rw [if_pos hC] at h
      by_cases h0C : 0 < C
      · rw [if_pos h0C] at h
        exact Or.inl ⟨hC, h0C, (Option.some.inj h).symm⟩
      · rw [if_neg h0C] at h
        exact absurd h (by simp)
    · rw [if_neg hC] at h
      by_cases hlt : h0.length < C
      · rw [if_pos hlt] at h
        exact Or.inr ⟨hlt, (Option.some.inj h).symm⟩
      · rw [if_neg hlt] at h
        exact absurd h (by simp)

theorem frontInsert_flatten {α : Type} (C : Nat) (v : α) (ns ns' : List (List α))
    (h : frontInsert C v ns = some ns') (hne : ns ≠ []) :
    ns'.flatten = v :: ns.flatten := by
  rcases frontInsert_cases C v ns ns' h hne with ⟨h0, t, rfl, ⟨_, _, rfl⟩ | ⟨_, rfl⟩⟩ <;> simp

theorem frontInsert_totalLen {α : Type} (C : Nat) (v : α) (ns ns' : List (List α))
    (h : frontInsert C v ns = some ns') (hne : ns ≠ []) :
    totalLen ns' = totalLen ns + 1 := by
  have hfl := frontInsert_flatten C v ns ns' h hne
  have h1 := length_flatten_eq_totalLen ns'
  have h2 := length_flatten_eq_totalLen ns
  rw [hfl, List.length_cons] at h1
  omega

theorem frontInsert_wf {α : Type} (C : Nat) (v : α) (ns ns' : List (List α))
    (h : frontInsert C v ns = some ns') (hne : ns ≠ [])
    (hw : ∀ l ∈ ns.drop 1, l ≠ []) : ∀ l ∈ ns'.drop 1, l ≠ [] := by
  rcases frontInsert_cases C v ns ns' h hne with ⟨h0, t, rfl, ⟨hC, h0C, rfl⟩ | ⟨_, rfl⟩⟩
  · intro l hl
    simp only [List.drop_one, List.tail_cons, List.mem_cons] at hl
    rcases hl with rfl | hl
    · intro hemp
      rw [hemp] at hC
      simp at hC
      omega
    · exact hw l (by simpa using hl)
  · simpa using hw

theorem popBack_cases {α : Type} (s s' : UL α) (h : popBack s = some s') :
    (s.sz = 0 ∧ s' = s) ∨
    (s.sz ≠ 0 ∧ s.nodes ≠ [] ∧ lastNode s.nodes ≠ [] ∧ s'.sz = s.sz - 1 ∧
      (((lastNode s.nodes).length = 1 ∧ 2 ≤ s.nodes.length ∧
          s'.nodes = s.nodes.dropLast) ∨
       (¬((lastNode s.nodes).length = 1 ∧ 2 ≤ s.nodes.length) ∧
          s'.nodes = s.nodes.dropLast ++ [(lastNode s.nodes).dropLast]))) := by
  by_cases hz : s.sz = 0
  · left
    rw [popBack, if_pos hz] at h
    exact ⟨hz, (Option.some.inj h).symm⟩
  right
  rw [popBack, if_neg hz] at h
  by_cases hne : s.nodes.isEmpty
  · rw [if_pos hne] at h
    exact absurd h (by simp)
  rw [if_neg hne] at h
  by_cases hle : (lastNode s.nodes).isEmpty
  · rw [if_pos hle] at h
    exact absurd h (by simp)
  rw [if_neg hle] at h
  have hne' : s.nodes ≠ [] := by
    intro hx
    rw [hx] at hne
    exact hne rfl
  have hlast : lastNode s.nodes ≠ [] := by
    intro hx
    rw [hx] at hle
    exact hle rfl
  refine ⟨hz, hne', hlast, ?_, ?_⟩
  · split at h <;> simpa using (congrArg UL.sz (Option.some.inj h)).symm
  · have hd := dropLastElem_eq s.nodes hne'
    have hlast_d : lastNode (dropLastElem s.nodes) = (lastNode s.nodes).dropLast := by
      rw [hd, lastNode_append_singleton]
    have hlen_d : (dropLastElem s.nodes).length = s.nodes.length := by
      rw [hd]
      simp [List.length_dropLast]
      cases hx : s.nodes
      · exact absurd hx hne'
      · simp [hx]
    have hlastlen : 1 ≤ (lastNode s.nodes).length := by
      cases hll : lastNode s.nodes
      · exact absurd hll hlast
      · simp [hll]
    have hiff : ((lastNode (dropLastElem s.nodes)).isEmpty ∧ 2 ≤ (dropLastElem s.nodes).length)
        ↔ ((lastNode s.nodes).length = 1 ∧ 2 ≤ s.nodes.length) := by
      rw [hlast_d, hlen_d]
      constructor
      · intro ⟨ha, hb⟩
        have := congrArg List.length (List.isEmpty_iff.1 ha)
        rw [List.length_dropLast] at this
        simp at this
        exact ⟨by omega, hb⟩
      · intro ⟨ha, hb⟩
        refine ⟨?_, hb⟩
        rw [List.isEmpty_iff, ← List.length_eq_zero, List.length_dropLast, ha]
    split at h
    · rename_i hcond
      left
      have hcond' := hiff.1 hcond
      refine ⟨hcond'.1, hcond'.2, ?_⟩
      have hn := congrArg UL.nodes (Option.some.inj h)
      simp at hn
      rw [← hn, hd]
      simp
    · rename_i hcond
      right
      refine ⟨fun hc => hcond (hiff.2 hc), ?_⟩
      have hn := congrArg UL.nodes (Option.some.inj h)
      simp at hn
      rw [← hn, hd]

theorem popFront_cases {α : Type} (s s' : UL α) (h : popFront s = some s') :
    (s.sz = 0 ∧ s' = s) ∨
    (s.sz ≠ 0 ∧ ∃ a h0 t, s.nodes = (a :: h0) :: t ∧ s'.sz = s.sz - 1 ∧
      ((h0 = [] ∧ s'.nodes = t) ∨ (h0 ≠ [] ∧ s'.nodes = h0 :: t))) := by
  by_cases hz : s.sz = 0
  · left
    rw [popFront, if_pos hz] at h
    exact ⟨hz, (Option.some.inj h).symm⟩
  right
  rw [popFront, if_neg hz] at h
  match hn : s.nodes, h with
  | (a :: h0) :: t, h =>
    refine ⟨hz, a, h0, t, rfl, ?_, ?_⟩
    · simpa using (congrArg UL.sz (Option.some.inj h)).symm
    · have hn' := (congrArg UL.nodes (Option.some.inj h)).symm
      simp only at hn'
      by_cases he : h0.isEmpty
      · left
        rw [if_pos he] at hn'
        exact ⟨List.isEmpty_iff.1 he, hn'⟩
      · right
        rw [if_neg he] at hn'
        exact ⟨fun hx => he (by rw [hx]; rfl), hn'⟩

theorem popFront_totalLen {α : Type} (s s' : UL α) (h : popFront s = some s')
    (hs : s.sz = totalLen s.nodes) : s'.sz = totalLen s'.nodes := by
  rcases popFront_cases s s' h with ⟨_, rfl⟩ | ⟨hz, a, h0, t, hn, hsz, hcase⟩
  · exact hs
  · rw [hn, totalLen_cons] at hs
    rcases hcase with ⟨rfl, hn'⟩ | ⟨_, hn'⟩
    · rw [hsz, hn', hs]
      simp
    · rw [hsz, hn', totalLen_cons, hs]
      simp

theorem popFront_wf {α : Type} (s s' : UL α) (h : popFront s = some s')
    (hw : ∀ l ∈ s.nodes.drop 1, l ≠ []) : ∀ l ∈ s'.nodes.drop 1, l ≠ [] := by
  rcases popFront_cases s s' h with ⟨_, rfl⟩ | ⟨_, a, h0, t, hn, _, hcase⟩
  · exact hw
  · rw [hn] at hw
    rcases hcase with ⟨_, hn'⟩ | ⟨_, hn'⟩ <;> rw [hn']
    · intro l hl
      exact hw l (by simpa using List.mem_of_mem_drop hl)
    · simpa using hw

theorem eraseAt_cases {α : Type} (s s' : UL α) (i p : Nat) (cur : Iter)
    (h : eraseAt s i p = some (s', cur)) :
    ∃ l, s.nodes.get? i = some l ∧ p < l.length ∧ s'.sz = s.sz - 1 ∧
      ((l.length = 1 ∧ i ≠ 0 ∧ s'.nodes = s.nodes.eraseIdx i ∧
          cur = if i < s'.nodes.length then some (i, 0) else none) ∨
       (¬(l.length = 1 ∧ i ≠ 0) ∧ s'.nodes = s.nodes.set i (nodeErase l p) ∧
          cur = some (i, if p < (nodeErase l p).length then p else 0))) := by
  unfold eraseAt at h
  rcases hg : s.nodes.get? i with _ | l <;> rw [hg] at h
  · exact absurd h (by simp)
  · dsimp only at h
    by_cases hp : p < l.length
    · rw [if_pos hp] at h
      refine ⟨l, rfl, hp, ?_, ?_⟩
      · split at h <;> simpa using (congrArg UL.sz (congrArg Prod.fst (Option.some.inj h))).symm
      · have hlen : (nodeErase l p).length = l.length - 1 := length_nodeErase l p hp
        by_cases hc : (nodeErase l p).length = 0 ∧ i ≠ 0
        · left
          have hl1 : l.length = 1 := by omega
          rw [if_pos hc] at h
          have hn' : s'.nodes = s.nodes.eraseIdx i := by
            simpa using (congrArg UL.nodes (congrArg Prod.fst (Option.some.inj h))).symm
          have hcur : cur = if i < (s.nodes.eraseIdx i).length then some (i, 0) else none := by
            simpa using (congrArg Prod.snd (Option.some.inj h)).symm
          refine ⟨hl1, hc.2, hn', ?_⟩
          rw [hcur, hn']
        · right
          rw [if_neg hc] at h
          have hc' : ¬(l.length = 1 ∧ i ≠ 0) := by
            intro ⟨ha, hb⟩
            exact hc ⟨by omega, hb⟩
          refine ⟨hc', ?_, ?_⟩
          · simpa using (congrArg UL.nodes (congrArg Prod.fst (Option.some.inj h))).symm
          · simpa using (congrArg Prod.snd (Option.some.inj h)).symm
    · rw [if_neg hp] at h
      exact absurd h (by simp)

theorem eraseAt_totalLen {α : Type} (s s' : UL α) (i p : Nat) (cur : Iter)
    (h : eraseAt s i p = some (s', cur)) (hs : s.sz = totalLen s.nodes) :
    s'.sz = totalLen s'.nodes := by
  rcases eraseAt_cases s s' i p cur h with ⟨l, hg, hp, hsz, hcase⟩
  have hle := length_le_totalLen s.nodes i l hg
  rcases hcase with ⟨hl1, _, hn, _⟩ | ⟨_, hn, _⟩
  · have := totalLen_eraseIdx s.nodes i l hg
    rw [hsz, hn, hs]
    omega
  · have := totalLen_set s.nodes i l (nodeErase l p) hg
    have hlen : (nodeErase l p).length = l.length - 1 := length_nodeErase l p hp
    rw [hsz, hn, hs]
    omega

theorem eraseAt_wf {α : Type} (s s' : UL α) (i p : Nat) (cur : Iter)
    (h : eraseAt s i p = some (s', cur))
    (hw : ∀ l ∈ s.nodes.drop 1, l ≠ []) : ∀ l ∈ s'.nodes.drop 1, l ≠ [] := by
  rcases eraseAt_cases s s' i p cur h with ⟨l, hg, hp, _, hcase⟩
  rcases hcase with ⟨_, hi, hn, _⟩ | ⟨hc, hn, _⟩
  · intro m hm
    rw [hn, drop_one_eraseIdx s.nodes i hi] at hm
    exact hw m (List.eraseIdx_subset _ _ hm)
  · intro m hm
    by_cases hi : i = 0
    · subst hi
      match hs : s.nodes, hg with
      | l0 :: t, hg =>
        simp at hg
        subst hg
        rw [hn, hs] at hm
        simp at hm
        rw [hs] at hw
        exact hw m (by simpa using hm)
    · rw [hn, drop_one_set s.nodes i _ hi] at hm
      rcases mem_of_mem_set _ _ _ _ hm with hm' | hm'
      · exact hw m hm'
      · rw [hm']
        have : l.length ≠ 1 := fun hx => hc ⟨hx, hi⟩
        have hlen : (nodeErase l p).length = l.length - 1 := length_nodeErase l p hp
        intro hx
        rw [hx] at hlen
        simp at hlen
        omega

theorem totalLen_decomp {α : Type} (ns : List (List α)) (i : Nat) (l : List α)
    (h : ns.get? i = some l) :
    totalLen ns = totalLen (ns.take i) + l.length + totalLen (ns.drop (i + 1)) := by
  conv_lhs => rw [← take_cons_drop ns i l h]
  rw [totalLen_append, totalLen_cons]
  omega

theorem splice_wf {α : Type} (ns : List (List α)) (i : Nat) (l : List α)
    (hg : ns.get? i = some l) (hw : ∀ m ∈ ns.drop 1, m ≠ [])
    (ms : List (List α)) (hms : ∀ m ∈ ms, m ≠ []) :
    ∀ m ∈ (ns.take i ++ ms ++ ns.drop (i + 1)).drop 1, m ≠ [] := by
  intro m hm
  have hdropsub : ∀ x ∈ ns.drop (i + 1), x ∈ ns.drop 1 := by
    intro x hx
    have : ns.drop (i + 1) = (ns.drop 1).drop i := by
      rw [List.drop_drop]
      congr 1
      omega
    rw [this] at hx
    exact List.drop_subset _ _ hx
  by_cases hi : i = 0
  · subst hi
    simp only [List.take_zero, List.nil_append] at hm
    rcases hms' : ms with _ | ⟨a, t⟩
    · subst hms'
      simp only [List.nil_append] at hm
      exact hw m (hdropsub m (List.drop_subset _ _ hm))
    · rw [hms', List.drop_append_of_le_length (by simp)] at hm
      rcases List.mem_append.1 hm with h' | h'
      · rw [← hms'] at h'
        exact hms m (List.mem_of_mem_drop h')
      · exact hw m (hdropsub m h')
  · have hilen : i < ns.length := by
      by_contra hge
      rw [List.get?_eq_none.2 (by omega)] at hg
      exact absurd hg (by simp)
    have htake : 1 ≤ (ns.take i).length := by
      rw [List.length_take]
      omega
    rw [List.append_assoc, List.drop_append_of_le_length htake] at hm
    rcases List.mem_append.1 hm with h' | h'
    · rw [drop_one_take] at h'
      exact hw m (List.take_subset _ _ h')
    · rcases List.mem_append.1 h' with h'' | h''
      · exact hms m h''
      · exact hw m (hdropsub m h'')

theorem emplace_cases {α : Type} (C : Nat) (s : UL α) (pos : Iter) (v : α)
    (s' : UL α) (cur : Iter) (h : emplace C s pos v = some (s', cur)) :
    (pos = none ∧ emplaceBack C v s = some s' ∧
       cur = some (s'.nodes.length - 1, (lastNode s'.nodes).length - 1)) ∨
    (∃ i p l, pos = some (i, p) ∧ s.nodes.get? i = some l ∧ s'.sz = s.sz + 1 ∧
      ((l.length < C ∧ p ≤ l.length ∧
          s'.nodes = s.nodes.set i (nodeInsert l p v) ∧ cur = some (i, p)) ∨
       (l.length = C ∧ p < C / 2 ∧
          s'.nodes = s.nodes.take i ++ [nodeInsert (l.take (C / 2)) p v, l.drop (C / 2)]
            ++ s.nodes.drop (i + 1) ∧
          cur = some (i, p)) ∨
       (l.length = C ∧ C / 2 ≤ p ∧ 1 ≤ C / 2 ∧ p ≤ C ∧
          s'.nodes = s.nodes.take i ++ [l.take (C / 2), nodeInsert (l.drop (C / 2)) (p - C / 2) v]
            ++ s.nodes.drop (i + 1) ∧
          cur = some (i + 1, p - C / 2)))) := by
  match pos, h with
  | none, h =>
    left
    simp only [emplace] at h
    rcases Option.map_eq_some'.1 h with ⟨s₀, hs₀, heq⟩
    have h1 := congrArg Prod.fst heq
    have h2 := congrArg Prod.snd heq
    simp only at h1 h2
    subst h1
    exact ⟨rfl, hs₀, h2.symm⟩
  | some (i, p), h =>
    right
    simp only [emplace] at h
    rcases hg : s.nodes.get? i with _ | l <;> rw [hg] at h
    · exact absurd h (by simp)
    refine ⟨i, p, l, rfl, hg, ?_, ?_⟩
    · dsimp only at h
      split at h
      · split at h
        · simpa using (congrArg UL.sz (congrArg Prod.fst (Option.some.inj h))).symm
        · exact absurd h (by simp)
      · split at h
        · split at h
          · simpa using (congrArg UL.sz (congrArg Prod.fst (Option.some.inj h))).symm
          · split at h
            · simpa using (congrArg UL.sz (congrArg Prod.fst (Option.some.inj h))).symm
            · exact absurd h (by simp)
        · exact absurd h (by simp)
    · dsimp only at h
      by_cases hlt : l.length < C
      · rw [if_pos hlt] at h
        by_cases hp : p ≤ l.length
        · rw [if_pos hp] at h
          left
          refine ⟨hlt, hp, ?_, ?_⟩
          · simpa using (congrArg UL.nodes (congrArg Prod.fst (Option.some.inj h))).symm
          · simpa using (congrArg Prod.snd (Option.some.inj h)).symm
        · rw [if_neg hp] at h
          exact absurd h (by simp)
      · rw [if_neg hlt] at h
        by_cases heq : l.length = C
        · rw [if_pos heq] at h
          by_cases hp : p < C / 2
          · rw [if_pos hp] at h
            right; left
            refine ⟨heq, hp, ?_, ?_⟩
            · simpa using (congrArg UL.nodes (congrArg Prod.fst (Option.some.inj h))).symm
            · simpa using (congrArg Prod.snd (Option.some.inj h)).symm
          · rw [if_neg hp] at h
            by_cases hg2 : 1 ≤ C / 2 ∧ p ≤ C
            · rw [if_pos hg2] at h
              right; right
              refine ⟨heq, by omega, hg2.1, hg2.2, ?_, ?_⟩
              · simpa using (congrArg UL.nodes (congrArg Prod.fst (Option.some.inj h))).symm
              · simpa using (congrArg Prod.snd (Option.some.inj h)).symm
            · rw [if_neg hg2] at h
              exact absurd h (by simp)
        · rw [if_neg heq] at h
          exact absurd h (by simp)

theorem emplace_at_node_totalLen {α : Type} (C : Nat) (s : UL α) (i p : Nat) (v : α)
    (s' : UL α) (cur : Iter) (h : emplace C s (some (i, p)) v = some (s', cur))
    (hs : s.sz = totalLen s.nodes) : s'.sz = totalLen s'.nodes := by
  rcases emplace_cases C s (some (i, p)) v s' cur h with ⟨hno, _, _⟩ | ⟨i', p', l, hip, hg, hsz, hcase⟩
  · exact absurd hno (by simp)
  have hii : i' = i ∧ p' = p := by
    have h1 := congrArg (fun o => o.map Prod.fst) hip
    have h2 := congrArg (fun o => o.map Prod.snd) hip
    simp at h1 h2
    exact ⟨h1.symm, h2.symm⟩
  obtain ⟨rfl, rfl⟩ := hii
  have hdec := totalLen_decomp s.nodes i' l hg
  rcases hcase with ⟨hlt, hp, hn, _⟩ | ⟨hfull, hp, hn, _⟩ | ⟨hfull, hp1, hp2, hp3, hn, _⟩
  · have := totalLen_set s.nodes i' l (nodeInsert l p' v) hg
    have hlen := length_nodeInsert l p' v hp
    rw [hsz, hn, hs]
    omega
  · have hhalf : C / 2 ≤ C := Nat.div_le_self C 2
    have hlen1 : (l.take (C / 2)).length = C / 2 := by
      rw [List.length_take]
      omega
    have hlen2 := length_nodeInsert (l.take (C / 2)) p' v (by omega)
    rw [hsz, hn, totalLen_append, totalLen_append, totalLen_cons, totalLen_cons, totalLen_nil,
        hs, hdec]
    rw [hlen2, hlen1]
    simp only [List.length_drop]
    omega
  · have hhalf : C / 2 ≤ C := Nat.div_le_self C 2
    have hlen1 : (l.take (C / 2)).length = C / 2 := by
      rw [List.length_take]
      omega
    have hlen2 := length_nodeInsert (l.drop (C / 2)) (p' - C / 2) v
      (by rw [List.length_drop]; omega)
    rw [hsz, hn, totalLen_append, totalLen_append, totalLen_cons, totalLen_cons, totalLen_nil,
        hs, hdec]
    rw [hlen2, hlen1]
    simp only [List.length_drop]
    omega

theorem emplace_at_node_wf {α : Type} (C : Nat) (s : UL α) (i p : Nat) (v : α)
    (s' : UL α) (cur : Iter) (h : emplace C s (some (i, p)) v = some (s', cur))
    (hw : ∀ l ∈ s.nodes.drop 1, l ≠ []) : ∀ l ∈ s'.nodes.drop 1, l ≠ [] := by
  rcases emplace_cases C s (some (i, p)) v s' cur h with ⟨hno, _, _⟩ | ⟨i', p', l, hip, hg, _, hcase⟩
  · exact absurd hno (by simp)
  have hii : i' = i ∧ p' = p := by
    have h1 := congrArg (fun o => o.map Prod.fst) hip
    have h2 := congrArg (fun o => o.map Prod.snd) hip
    simp at h1 h2
    exact ⟨h1.symm, h2.symm⟩
  obtain ⟨rfl, rfl⟩ := hii
  have hins_ne : ∀ (m : List α) (q : Nat), nodeInsert m q v ≠ [] := by
    intro m q hx
    have := congrArg List.length hx
    simp [nodeInsert] at this
  rcases hcase with ⟨hlt, hp, hn, _⟩ | ⟨hfull, hp, hn, _⟩ | ⟨hfull, hp1, hp2, hp3, hn, _⟩
  · rw [hn]
    intro m hm
    by_cases hi : i' = 0
    · subst hi
      rcases hns : s.nodes with _ | ⟨l0, t⟩
      · rw [hns] at hg
        exact absurd hg (by simp)
      · rw [hns] at hm hw
        rw [List.set_cons_zero] at hm
        exact hw m (by simpa using hm)
    · rw [drop_one_set s.nodes i' _ hi] at hm
      rcases mem_of_mem_set _ _ _ _ hm with hm' | hm'
      · exact hw m hm'
      · rw [hm']
        exact hins_ne l p'
  · rw [hn]
    apply splice_wf s.nodes i' l hg hw
    intro m hm
    simp only [List.mem_cons, List.not_mem_nil, or_false] at hm
    rcases hm with rfl | rfl
    · exact hins_ne _ _
    · intro hx
      have := congrArg List.length hx
      rw [List.length_drop, hfull] at this
      simp at this
      omega
  · rw [hn]
    apply splice_wf s.nodes i' l hg hw
    intro m hm
    simp only [List.mem_cons, List.not_mem_nil, or_false] at hm
    rcases hm with rfl | rfl
    · intro hx
      have := congrArg List.length hx
      rw [List.length_take, hfull] at this
      simp at this
      omega
    · exact hins_ne _ _

theorem emplaceBack_cases {α : Type} (C : Nat) (v : α) (s s' : UL α)
    (h : emplaceBack C v s = some s') :
    s'.sz = s.sz + 1 ∧ ∃ ns₀ : List (List α),
      ((s.nodes = [] ∧ s.sz = 0 ∧ ns₀ = [[]]) ∨ (s.nodes ≠ [] ∧ s.sz ≠ 0 ∧ ns₀ = s.nodes)) ∧
      tailAppend C v ns₀ = some s'.nodes := by
  rcases hn : s.nodes with _ | ⟨n0, t⟩ <;> rw [emplaceBack, hn] at h <;> dsimp only at h
  · by_cases hz : s.sz = 0
    · rw [if_pos hz] at h
      rcases Option.map_eq_some'.1 h with ⟨ns₁, hns₁, heq⟩
      refine ⟨by rw [← heq], [[]], Or.inl ⟨rfl, hz, rfl⟩, ?_⟩
      rw [hns₁, ← heq]
    · rw [if_neg hz] at h
      exact absurd h (by simp)
  · by_cases hz : s.sz = 0
    · rw [if_pos hz] at h
      exact absurd h (by simp)
    · rw [if_neg hz] at h
      rcases Option.map_eq_some'.1 h with ⟨ns₁, hns₁, heq⟩
      refine ⟨by rw [← heq], n0 :: t, Or.inr ⟨by simp, hz, rfl⟩, ?_⟩
      rw [hns₁, ← heq]

theorem emplaceBack_flatten {α : Type} (C : Nat) (v : α) (s s' : UL α)
    (h : emplaceBack C v s = some s') :
    s'.nodes.flatten = s.nodes.flatten ++ [v] ∧ s'.sz = s.sz + 1 ∧ s'.nodes ≠ [] := by
  rcases emplaceBack_cases C v s s' h with ⟨hsz, ns₀, hcase, hta⟩
  rcases hcase with ⟨hn, _, rfl⟩ | ⟨hne, _, rfl⟩
  · have := tailAppend_flatten C v [[]] s'.nodes hta (by simp)
    refine ⟨by rw [this, hn]; simp, hsz, tailAppend_ne_nil C v [[]] s'.nodes hta (by simp)⟩
  · exact ⟨tailAppend_flatten C v s.nodes s'.nodes hta hne, hsz,
      tailAppend_ne_nil C v s.nodes s'.nodes hta hne⟩

theorem emplaceBack_totalLen {α : Type} (C : Nat) (v : α) (s s' : UL α)
    (h : emplaceBack C v s = some s') (hs : s.sz = totalLen s.nodes) :
    s'.sz = totalLen s'.nodes := by
  rcases emplaceBack_flatten C v s s' h with ⟨hfl, hsz, _⟩
  have h1 := length_flatten_eq_totalLen s'.nodes
  have h2 := length_flatten_eq_totalLen s.nodes
  rw [hfl, List.length_append, List.length_singleton] at h1
  omega

theorem emplaceBack_wf {α : Type} (C : Nat) (v : α) (s s' : UL α)
    (h : emplaceBack C v s = some s') (hw : ∀ l ∈ s.nodes.drop 1, l ≠ []) :
    ∀ l ∈ s'.nodes.drop 1, l ≠ [] := by
  rcases emplaceBack_cases C v s s' h with ⟨_, ns₀, hcase, hta⟩
  rcases hcase with ⟨hn, _, rfl⟩ | ⟨hne, _, rfl⟩
  · exact tailAppend_wf C v [[]] s'.nodes hta (by simp) (by simp)
  · exact tailAppend_wf C v s.nodes s'.nodes hta hne hw

theorem emplaceFront_cases {α : Type} (C : Nat) (v : α) (s s' : UL α)
    (h : emplaceFront C v s = some s') :
    s'.sz = s.sz + 1 ∧ ∃ ns₀ : List (List α),
      ((s.nodes = [] ∧ s.sz = 0 ∧ ns₀ = [[]]) ∨ (s.nodes ≠ [] ∧ s.sz ≠ 0 ∧ ns₀ = s.nodes)) ∧
      frontInsert C v ns₀ = some s'.nodes := by
  rcases hn : s.nodes with _ | ⟨n0, t⟩ <;> rw [emplaceFront, hn] at h <;> dsimp only at h
  · by_cases hz : s.sz = 0
    · rw [if_pos hz] at h
      rcases Option.map_eq_some'.1 h with ⟨ns₁, hns₁, heq⟩
      refine ⟨by rw [← heq], [[]], Or.inl ⟨rfl, hz, rfl⟩, ?_⟩
      rw [hns₁, ← heq]
    · rw [if_neg hz] at h
      exact absurd h (by simp)
  · by_cases hz : s.sz = 0
    · rw [if_pos hz] at h
      exact absurd h (by simp)
    · rw [if_neg hz] at h
      rcases Option.map_eq_some'.1 h with ⟨ns₁, hns₁, heq⟩
      refine ⟨by rw [← heq], n0 :: t, Or.inr ⟨by simp, hz, rfl⟩, ?_⟩
      rw [hns₁, ← heq]

theorem emplaceFront_flatten {α : Type} (C : Nat) (v : α) (s s' : UL α)
    (h : emplaceFront C v s = some s') :
    s'.nodes.flatten = v :: s.nodes.flatten ∧ s'.sz = s.sz + 1 := by
  rcases emplaceFront_cases C v s s' h with ⟨hsz, ns₀, hcase, hfi⟩
  rcases hcase with ⟨hn, _, rfl⟩ | ⟨hne, _, rfl⟩
  · have := frontInsert_flatten C v [[]] s'.nodes hfi (by simp)
    exact ⟨by rw [this, hn]; simp, hsz⟩
  · exact ⟨frontInsert_flatten C v s.nodes s'.nodes hfi hne, hsz⟩

theorem emplaceFront_totalLen {α : Type} (C : Nat) (v : α) (s s' : UL α)
    (h : emplaceFront C v s = some s') (hs : s.sz = totalLen s.nodes) :
    s'.sz = totalLen s'.nodes := by
  rcases emplaceFront_flatten C v s s' h with ⟨hfl, hsz⟩
  have h1 := length_flatten_eq_totalLen s'.nodes
  have h2 := length_flatten_eq_totalLen s.nodes
  rw [hfl, List.length_cons] at h1
  omega

theorem emplaceFront_wf {α : Type} (C : Nat) (v : α) (s s' : UL α)
    (h : emplaceFront C v s = some s') (hw : ∀ l ∈ s.nodes.drop 1, l ≠ []) :
    ∀ l ∈ s'.nodes.drop 1, l ≠ [] := by
  rcases emplaceFront_cases C v s s' h with ⟨_, ns₀, hcase, hfi⟩
  rcases hcase with ⟨hn, _, rfl⟩ | ⟨hne, _, rfl⟩
  · exact frontInsert_wf C v [[]] s'.nodes hfi (by simp) (by simp)
  · exact frontInsert_wf C v s.nodes s'.nodes hfi hne hw

theorem emplace_totalLen {α : Type} (C : Nat) (s : UL α) (pos : Iter) (v : α)
    (s' : UL α) (cur : Iter) (h : emplace C s pos v = some (s', cur))
    (hs : s.sz = totalLen s.nodes) : s'.sz = totalLen s'.nodes := by
  match pos with
  | none =>
    rcases emplace_cases C s none v s' cur h with ⟨_, hb, _⟩ | ⟨i, p, l, hip, _⟩
    · exact emplaceBack_totalLen C v s s' hb hs
    · exact absurd hip (by simp)
  | some (i, p) => exact emplace_at_node_totalLen C s i p v s' cur h hs

theorem emplace_wf {α : Type} (C : Nat) (s : UL α) (pos : Iter) (v : α)
    (s' : UL α) (cur : Iter) (h : emplace C s pos v = some (s', cur))
    (hw : ∀ l ∈ s.nodes.drop 1, l ≠ []) : ∀ l ∈ s'.nodes.drop 1, l ≠ [] := by
  match pos with
  | none =>
    rcases emplace_cases C s none v s' cur h with ⟨_, hb, _⟩ | ⟨i, p, l, hip, _⟩
    · exact emplaceBack_wf C v s s' hb hw
    · exact absurd hip (by simp)
  | some (i, p) => exact emplace_at_node_wf C s i p v s' cur h hw


theorem popBack_totalLen {α : Type} (s s' : UL α) (h : popBack s = some s')
    (hs : s.sz = totalLen s.nodes) : s'.sz = totalLen s'.nodes := by
  rcases popBack_cases s s' h with ⟨_, rfl⟩ | ⟨hz, hne, hlast, hsz, hcase⟩
  · exact hs
  · have hsplit : totalLen s.nodes = totalLen s.nodes.dropLast + (lastNode s.nodes).length := by
      conv_lhs => rw [← dropLast_append_lastNode s.nodes hne]
      rw [totalLen_append, totalLen_cons, totalLen_nil]
      omega
    rcases hcase with ⟨h1, _, hn⟩ | ⟨_, hn⟩
    · rw [hsz, hn, hs, hsplit, h1]
      omega
    · rw [hsz, hn, totalLen_append, totalLen_cons, totalLen_nil, List.length_dropLast,
        hs, hsplit]
      have : 1 ≤ (lastNode s.nodes).length := by
        cases hll : lastNode s.nodes
        · exact absurd hll hlast
        · simp [hll]
      omega

theorem popBack_wf {α : Type} (s s' : UL α) (h : popBack s = some s')
    (hw : ∀ l ∈ s.nodes.drop 1, l ≠ []) : ∀ l ∈ s'.nodes.drop 1, l ≠ [] := by
  rcases popBack_cases s s' h with ⟨_, rfl⟩ | ⟨_, hne, hlast, _, hcase⟩
  · exact hw
  · rcases hcase with ⟨_, _, hn⟩ | ⟨hcond, hn⟩
    · intro l hl
      rw [hn, drop_one_dropLast] at hl
      exact hw l (mem_of_mem_dropLast _ l hl)
    · intro l hl
      rw [hn] at hl
      rcases hd : s.nodes.dropLast with _ | ⟨d, ds⟩
      · rw [hd] at hl
        simp at hl
      · rw [hd] at hl
        rw [List.drop_append_of_le_length (by simp)] at hl
        rcases List.mem_append.1 hl with h' | h'
        · rw [← hd, drop_one_dropLast] at h'
          exact hw l (mem_of_mem_dropLast _ l h')
        · simp at h'
          rw [h']
          intro hemp
          apply hcond
          have hge : 1 ≤ (lastNode s.nodes).length := by
            cases hll : lastNode s.nodes
            · exact absurd hll hlast
            · simp [hll]
          have hc := congrArg List.length hemp
          rw [List.length_dropLast] at hc
          simp at hc
          have hlen2 : 2 ≤ s.nodes.length := by
            have := congrArg List.length hd
            rw [List.length_dropLast] at this
            simp at this
            omega
          exact ⟨by omega, hlen2⟩

/-! ### Reachable states of the single-chain fragment

`Step` is one public mutating operation with a defined execution
(`push_back`/`push_front` via `emplace_back`/`emplace_front`, `pop_back`,
`pop_front`, `insert`/`emplace` at a cursor, `erase` at a cursor, `clear`);
`erase(first, last)` is the loop of single `erase` steps, and the
constructors and assignment operators are loops of `push_back` steps, so
their intermediate states are covered by these steps.  `Reachable` is any
finite sequence of such operations from the default-constructed container.

This relation covers exactly the executions in which head and tail keep
denoting one chain: an insertion applied to a `size_ = 0` container that
retains a drained node detaches the tail (see `ULX` below) and has no `Step`
successor here.  `Reachable` therefore under-approximates the program's
reachable states — every state it reaches is genuinely reachable, which is
how the counterexamples below use it, but invariants proved over it hold
only of the single-chain fragment; the full relation is `StepX`. -/
inductive Step (α : Type) (C : Nat) : UL α → UL α → Prop where
  | pushBack (v : α) {s s' : UL α} : emplaceBack C v s = some s' → Step α C s s'
  | pushFront (v : α) {s s' : UL α} : emplaceFront C v s = some s' → Step α C s s'
  | popB {s s' : UL α} : popBack s = some s' → Step α C s s'
  | popF {s s' : UL α} : popFront s = some s' → Step α C s s'
  | ins (pos : Iter) (v : α) (cur : Iter) {s s' : UL α} :
      emplace C s pos v = some (s', cur) → Step α C s s'
  | del (i p : Nat) (cur : Iter) {s s' : UL α} :
      eraseAt s i p = some (s', cur) → Step α C s s'
  | clr {s : UL α} : Step α C s (clearUL s)

inductive Reachable (α : Type) (C : Nat) : UL α → Prop where
  | init : Reachable α C (emptyUL α)
  | step {s s' : UL α} : Reachable α C s → Step α C s s' → Reachable α C s'

theorem step_totalLen {α : Type} {C : Nat} {s s' : UL α} (h : Step α C s s')
    (hs : s.sz = totalLen s.nodes) : s'.sz = totalLen s'.nodes := by
  cases h with
  | pushBack v h => exact emplaceBack_totalLen C v s s' h hs
  | pushFront v h => exact emplaceFront_totalLen C v s s' h hs
  | popB h => exact popBack_totalLen s s' h hs
  | popF h => exact popFront_totalLen s s' h hs
  | ins pos v cur h => exact emplace_totalLen C s pos v s' cur h hs
  | del i p cur h => exact eraseAt_totalLen s s' i p cur h hs
  | clr => rfl

theorem step_wf {α : Type} {C : Nat} {s s' : UL α} (h : Step α C s s')
    (hw : ∀ l ∈ s.nodes.drop 1, l ≠ []) : ∀ l ∈ s'.nodes.drop 1, l ≠ [] := by
  cases h with
  | pushBack v h => exact emplaceBack_wf C v s s' h hw
  | pushFront v h => exact emplaceFront_wf C v s s' h hw
  | popB h => exact popBack_wf s s' h hw
  | popF h => exact popFront_wf s s' h hw
  | ins pos v cur h => exact emplace_wf C s pos v s' cur h hw
  | del i p cur h => exact eraseAt_wf s s' i p cur h hw
  | clr => simp [clearUL]

/-- Every reachable state keeps `size_` equal to the sum of the node counts. -/
theorem reach_sz {α : Type} {C : Nat} {s : UL α} (h : Reachable α C s) :
    s.sz = totalLen s.nodes := by
  induction h with
  | init => rfl
  | step _ hstep ih => exact step_totalLen hstep ih

/-- In every reachable state, every node other than the head node is nonempty. -/
theorem reach_wf {α : Type} {C : Nat} {s : UL α} (h : Reachable α C s) :
    ∀ l ∈ s.nodes.drop 1, l ≠ [] := by
  induction h with
  | init => simp [emptyUL]
  | step _ hstep ih => exact step_wf hstep ih

/-! ### The forward traversal visits exactly the chain contents -/

theorem drop_eq_cons {β : Type} :
    ∀ (xs : List β) (i : Nat) (x : β), xs.get? i = some x →
      xs.drop i = x :: xs.drop (i + 1)
  | [], i, x, h => by simp [List.get?] at h
  | a :: t, 0, x, h => by simp [List.get?] at h; simp [h]
  | a :: t, i + 1, x, h => by
    simp only [List.get?] at h
    simpa using drop_eq_cons t i x h

theorem travFrom_none {α : Type} (fuel : Nat) (ns : List (List α)) :
    travFrom fuel ns none = [] := by
  match fuel with
  | 0 => rfl
  | _ + 1 => rfl

theorem travFrom_spec {α : Type} :
    ∀ (fuel : Nat) (ns : List (List α)) (i p : Nat) (l : List α),
      ns.get? i = some l → (p < l.length ∨ p = 0) →
      (totalLen (ns.drop i) - p) + (ns.length - i) ≤ fuel →
      travFrom fuel ns (some (i, p)) = l.drop p ++ (ns.drop (i + 1)).flatten := by
  intro fuel
  induction fuel using Nat.strong_induction_on with
  | _ fuel ih =>
    intro ns i p l hg hp hf
    have hilen : i < ns.length := by
      by_contra hge
      rw [List.get?_eq_none.2 (by omega)] at hg
      exact absurd hg (by simp)
    have hdropi : ns.drop i = l :: ns.drop (i + 1) := drop_eq_cons ns i l hg
    have htot : totalLen (ns.drop i) = l.length + totalLen (ns.drop (i + 1)) := by
      rw [hdropi, totalLen_cons]
    obtain _ | f := fuel
    · omega
    rw [travFrom, iterStep, hg]
    dsimp only
    by_cases hA : p + 1 < l.length
    · have hpl : p < l.length := by omega
      have hderef : derefAt ns (i, p) = some (l.get ⟨p, hpl⟩) := by
        rw [derefAt, hg]
        simp [List.get?_eq_get hpl]
      rw [if_pos hA, hderef]
      dsimp only
      have hih := ih f (by omega) ns i (p + 1) l hg (Or.inl hA) (by omega)
      rw [hih, drop_eq_cons l p (l.get ⟨p, hpl⟩) (List.get?_eq_get hpl)]
      rfl
    · rw [if_neg hA]
      by_cases hB : i + 1 < ns.length
      · rw [if_pos hB]
        rcases hg2 : ns.get? (i + 1) with _ | l₂
        · rw [List.get?_eq_none] at hg2
          omega
        have hdrop2 : ns.drop (i + 1) = l₂ :: ns.drop (i + 2) := drop_eq_cons ns (i + 1) l₂ hg2
        have htot2 : totalLen (ns.drop (i + 1)) = l₂.length + totalLen (ns.drop (i + 2)) := by
          rw [hdrop2, totalLen_cons]
        have hih := ih f (by omega) ns (i + 1) 0 l₂ hg2 (Or.inr rfl) (by omega)
        by_cases hpl : p < l.length
        · have hderef : derefAt ns (i, p) = some (l.get ⟨p, hpl⟩) := by
            rw [derefAt, hg]
            simp [List.get?_eq_get hpl]
          rw [hderef]
          dsimp only
          rw [hih]
          have hlast : l.drop p = [l.get ⟨p, hpl⟩] := by
            rw [drop_eq_cons l p (l.get ⟨p, hpl⟩) (List.get?_eq_get hpl),
              List.drop_eq_nil_of_le (by omega)]
          rw [hlast, hdrop2]
          simp
        · have hp0 : p = 0 := by
            rcases hp with h | h
            · omega
            · exact h
          subst hp0
          have hl0 : l.length = 0 := by omega
          have hl : l = [] := List.length_eq_zero.1 hl0
          subst hl
          have hderef : derefAt ns (i, 0) = none := by
            rw [derefAt, hg]
            rfl
          rw [hderef]
          dsimp only
          rw [hih]
          rw [hdrop2]
          simp
      · rw [if_neg hB]
        have hdrop1 : ns.drop (i + 1) = [] := List.drop_eq_nil_of_le (by omega)
        by_cases hpl : p < l.length
        · have hderef : derefAt ns (i, p) = some (l.get ⟨p, hpl⟩) := by
            rw [derefAt, hg]
            simp [List.get?_eq_get hpl]
          rw [hderef]
          dsimp only
          have hlast : l.drop p = [l.get ⟨p, hpl⟩] := by
            rw [drop_eq_cons l p (l.get ⟨p, hpl⟩) (List.get?_eq_get hpl),
              List.drop_eq_nil_of_le (by omega)]
          rw [travFrom_none, hlast, hdrop1]
          simp
        · have hp0 : p = 0 := by
            rcases hp with h | h
            · omega
            · exact h
          subst hp0
          have hl0 : l.length = 0 := by omega
          have hl : l = [] := List.length_eq_zero.1 hl0
          subst hl
          have hderef : derefAt ns (i, 0) = none := by
            rw [derefAt, hg]
            rfl
          rw [hderef]
          dsimp only
          rw [travFrom_none, hdrop1]
          simp

/-- With enough fuel, the forward traversal from `begin()` reads off exactly
the concatenation of the node contents in chain order. -/
theorem travFrom_begin {α : Type} (ns : List (List α)) (fuel : Nat)
    (hf : totalLen ns + ns.length ≤ fuel) :
    travFrom fuel ns (beginIt ns) = ns.flatten := by
  rcases hn : ns with _ | ⟨n0, t⟩
  · match fuel with
    | 0 => rfl
    | f + 1 => rfl
  · have hg : (n0 :: t).get? 0 = some n0 := rfl
    have := travFrom_spec fuel (n0 :: t) 0 0 n0 hg (Or.inr rfl)
      (by rw [hn] at hf; simpa using hf)
    rw [beginIt, this]
    simp


/-! ### The full state space: executions that detach the tail

The single-chain state `UL` covers exactly the executions in which `head` and
`tail` keep denoting one chain.  One defined execution leaves that space: an
insertion applied to a container with `size_ = 0` that still retains a
drained node.  There `emplace_back`/`emplace_front` run
`if (empty()) create_node();`, and `create_node()` with no arguments keeps
`head` at the old node (`if (!head)` fails) while making the fresh, unlinked
node the container's tail (`if (next_node == nullptr) tail = new_node;`).
From then on the tail pointer addresses a chain of its own, disjoint from the
chain from `head`.

`ULX` represents the full state: the chain from `head`; the location of the
tail pointer — `Tail.last`, the last node of that chain (null when the chain
is empty); `Tail.detached ts`, the last node of the separate chain `ts`; or
`Tail.null`, a null tail beside a nonempty head chain, left by `pop_back`
draining a one-node detached chain — and the cached `size_`.

Nodes that lose their last reference are never freed but also never again
reached by any container operation: `pop_front` draining the head chain runs
`if (!head) tail = nullptr;` and abandons a detached chain, and a split of
the last head-chain node re-points the tail at the fresh node with the same
effect.  The model drops such orphaned nodes; their elements remain counted
in `size_`, which is why `size_` can exceed the element count of every node
the container still references.  Cursors into orphaned nodes no longer
denote container positions and are outside the step relation below. -/

/-- Where the tail pointer points, relative to the chain from `head`. -/
inductive Tail (α : Type) where
  | last : Tail α
  | detached : List (List α) → Tail α
  | null : Tail α
deriving DecidableEq, Repr

/-- Full container state: the chain from `head`, the tail location, `size_`. -/
structure ULX (α : Type) where
  nodes : List (List α)
  tl : Tail α
  sz : Nat
deriving DecidableEq, Repr

/-- `unrolled_list()` in the full model: no nodes, null tail, `size_ = 0`. -/
def emptyULX (α : Type) : ULX α := ⟨[], Tail.last, 0⟩

/-- The number of elements in the detached chain the tail addresses, if any. -/
def tailLenX {α : Type} : Tail α → Nat
  | Tail.last => 0
  | Tail.detached ts => totalLen ts
  | Tail.null => 0

/-- `if (empty()) create_node();`, the shared prologue of `emplace_back` and
`emplace_front`.  With no node alive the fresh node becomes both `head` and
the tail.  With a retained node alive (`size_ = 0` after a drain), `head`
stays at the old node, the fresh unlinked node becomes the tail, and
whatever chain the tail addressed before is abandoned. -/
def emptyProlog {α : Type} (s : ULX α) : ULX α :=
  if s.sz = 0 then
    match s.nodes with
    | [] => ⟨[[]], Tail.last, s.sz⟩
    | _ :: _ => ⟨s.nodes, Tail.detached [[]], s.sz⟩
  else s

/-- Body of `emplace_back` after the prologue:
`if (tail->is_full()) create_node(tail, nullptr); tail->emplace_back(v);
++size_;` — all through the tail pointer, so on whichever chain it addresses.
With a null tail (`size_ ≠ 0` and no chain for it), `tail->is_full()`
dereferences null: undefined. -/
def backCore {α : Type} (C : Nat) (v : α) (t : ULX α) : Option (ULX α) :=
  match t.tl with
  | Tail.last =>
    match t.nodes with
    | [] => none
    | _ :: _ => (tailAppend C v t.nodes).map (fun ns => ⟨ns, Tail.last, t.sz + 1⟩)
  | Tail.detached ts =>
    (tailAppend C v ts).map (fun ts' => ⟨t.nodes, Tail.detached ts', t.sz + 1⟩)
  | Tail.null => none

/-- `emplace_back(v)` (and `push_back`) in the full model. -/
def emplaceBackX {α : Type} (C : Nat) (v : α) (s : ULX α) : Option (ULX α) :=
  backCore C v (emptyProlog s)

/-- Body of `emplace_front` after the prologue:
`if (head->is_full()) head = create_node(nullptr, head); head->insert(0, v);
++size_;` — always on the head chain; `create_node` with a non-null
`next_node` leaves the tail pointer alone.  With a null `head`
(`size_ ≠ 0` and no head chain), `head->is_full()` dereferences null:
undefined. -/
def frontCore {α : Type} (C : Nat) (v : α) (t : ULX α) : Option (ULX α) :=
  match t.nodes with
  | [] => none
  | _ :: _ => (frontInsert C v t.nodes).map (fun ns => ⟨ns, t.tl, t.sz + 1⟩)

/-- `emplace_front(v)` (and `push_front`) in the full model. -/
def emplaceFrontX {α : Type} (C : Nat) (v : α) (s : ULX α) : Option (ULX α) :=
  frontCore C v (emptyProlog s)

/-- `pop_back()` in the full model.  The pop acts through the tail pointer on
whichever chain it addresses.  The guard `tail != head` reduces to "at least
two nodes" when the tail is the last head-chain node and always holds when it
is detached, so a drained detached tail node is always destroyed — the tail
then moves to its `prev`, which is null when the detached chain had a single
node.  A null tail with `size_ ≠ 0` dereferences null: undefined.
(`Tail.detached []` never arises from the operations; treated as undefined.) -/
def popBackX {α : Type} (s : ULX α) : Option (ULX α) :=
  if s.sz = 0 then some s
  else
    match s.tl with
    | Tail.last => (popBack ⟨s.nodes, s.sz⟩).map (fun t => ⟨t.nodes, Tail.last, t.sz⟩)
    | Tail.detached ts =>
      if ts.isEmpty then none
      else if (lastNode ts).isEmpty then none
      else
        if (lastNode (dropLastElem ts)).isEmpty then
          if 2 ≤ (dropLastElem ts).length
          then some ⟨s.nodes, Tail.detached (dropLastElem ts).dropLast, s.sz - 1⟩
          else some ⟨s.nodes, Tail.null, s.sz - 1⟩
        else some ⟨s.nodes, Tail.detached (dropLastElem ts), s.sz - 1⟩
    | Tail.null => none

/-- `pop_front()` in the full model.  The head chain and `size_` change as in
the single-chain model; when the drained head node was the last node of its
chain, `head` becomes null and `if (!head) tail = nullptr;` runs, abandoning
whatever chain the tail addressed — the state is the node-free one, with
`size_` still counting any abandoned elements. -/
def popFrontX {α : Type} (s : ULX α) : Option (ULX α) :=
  if s.sz = 0 then some s
  else
    match s.nodes with
    | [] => none
    | [] :: _ => none
    | (_ :: h) :: t =>
      if h.isEmpty then
        match t with
        | [] => some ⟨[], Tail.last, s.sz - 1⟩
        | _ :: _ => some ⟨t, s.tl, s.sz - 1⟩
      else some ⟨h :: t, s.tl, s.sz - 1⟩

/-- `erase(pos)` at a cursor `(i, p)` into the head chain: the chain and
`size_` change exactly as in the single-chain model (`eraseAt`), and the tail
location is untouched — `destroy_node` re-points the tail only when the
unlinked node is the tail itself, which the list model already reflects when
the tail is the last head-chain node, and which cannot happen when the tail
is detached or null. -/
def eraseAtX {α : Type} (s : ULX α) (i p : Nat) : Option (ULX α × Iter) :=
  (eraseAt ⟨s.nodes, s.sz⟩ i p).map (fun t => (⟨t.1.nodes, s.tl, t.1.sz⟩, t.2))

/-- `erase(pos)` at a cursor into the detached chain (such cursors are what
`insert`/`emplace` return after an insertion into a drained container).  The
cursor's node is never the head node, so a drained node is always unlinked
and destroyed — including the first node of the detached chain; when the
whole detached chain goes away the tail becomes null (`destroy_node` runs
`tail = node->prev` with a null `prev`).  The returned iterator stays within
the detached chain and is not representable as a head-chain cursor, so only
the state is modelled. -/
def eraseDetachedX {α : Type} (s : ULX α) (i p : Nat) : Option (ULX α) :=
  match s.tl with
  | Tail.detached ts =>
    match ts.get? i with
    | none => none
    | some l =>
      if p < l.length then
        if (nodeErase l p).length = 0 then
          if (ts.eraseIdx i).isEmpty then some ⟨s.nodes, Tail.null, s.sz - 1⟩
          else some ⟨s.nodes, Tail.detached (ts.eraseIdx i), s.sz - 1⟩
        else some ⟨s.nodes, Tail.detached (ts.set i (nodeErase l p)), s.sz - 1⟩
      else none
  | Tail.last => none
  | Tail.null => none

/-- `emplace(pos, v)` at a cursor `(i, p)` into the head chain.  The chain
and `size_` change exactly as in the single-chain model (`emplace` at that
cursor).  The tail location changes in exactly one case: when the full node
being split is the last node of the head chain,
`create_node(node, node->next)` runs with `next_node == nullptr` and
re-points the tail at the fresh node — a previously detached chain is
abandoned and the tail rejoins the head chain. -/
def emplaceAtX {α : Type} (C : Nat) (s : ULX α) (i p : Nat) (v : α) :
    Option (ULX α) :=
  (emplace C ⟨s.nodes, s.sz⟩ (some (i, p)) v).map (fun t =>
    ⟨t.1.nodes,
     if ((s.nodes.get? i).getD []).length = C ∧ i + 1 = s.nodes.length then Tail.last
     else s.tl,
     t.1.sz⟩)

/-- `emplace(pos, v)` at a cursor into the detached chain: the same
single-chain computation applied to that chain.  A split's
`create_node(node, node->next)` happens inside the chain, and when the split
node is its last, the tail moves to the fresh node — still the last node of
the detached chain, as the list model reflects. -/
def emplaceDetachedX {α : Type} (C : Nat) (s : ULX α) (i p : Nat) (v : α) :
    Option (ULX α) :=
  match s.tl with
  | Tail.detached ts =>
    (emplace C ⟨ts, s.sz⟩ (some (i, p)) v).map
      (fun t => ⟨s.nodes, Tail.detached t.1.nodes, t.1.sz⟩)
  | Tail.last => none
  | Tail.null => none

/-- `clear()`: the `while (head)` loop destroys the head chain only, then
`head = tail = nullptr; size_ = 0;` — a detached chain is abandoned, not
freed. -/
def clearULX {α : Type} (_ : ULX α) : ULX α := ⟨[], Tail.last, 0⟩

/-- The size bound of the full model: `size_` is at least the number of
elements in the nodes the container still references (the difference is the
elements of abandoned nodes). -/
def invX {α : Type} (s : ULX α) : Prop :=
  totalLen s.nodes + tailLenX s.tl ≤ s.sz

/-! #### Effect lemmas for the single-chain operations, reused by the full
model -/

theorem tailAppend_totalLen_le {α : Type} (C : Nat) (v : α)
    (ns ns' : List (List α)) (h : tailAppend C v ns = some ns') :
    totalLen ns' ≤ totalLen ns + 1 := by
  by_cases hne : ns = []
  · subst hne
    have hdef : tailAppend C v ([] : List (List α)) =
        (if (lastNode (if (lastNode ([] : List (List α))).length = C
              then ([] : List (List α)) ++ [[]] else [])).length < C
         then some (appendLast v (if (lastNode ([] : List (List α))).length = C
              then ([] : List (List α)) ++ [[]] else []))
         else none) := rfl
    rw [hdef] at h
    by_cases hC : (lastNode ([] : List (List α))).length = C
    · rw [if_pos hC] at h
      split at h
      · rw [← Option.some.inj h]
        simp [appendLast, totalLen]
      · exact absurd h (by simp)
    · rw [if_neg hC] at h
      split at h
      · rw [← Option.some.inj h]
        simp [appendLast, totalLen]
      · exact absurd h (by simp)
  · exact Nat.le_of_eq (tailAppend_totalLen C v ns ns' h hne)

theorem eraseAt_effect {α : Type} (s s' : UL α) (i p : Nat) (cur : Iter)
    (h : eraseAt s i p = some (s', cur)) :
    totalLen s'.nodes + 1 = totalLen s.nodes ∧ s'.sz = s.sz - 1 := by
  rcases eraseAt_cases s s' i p cur h with ⟨l, hg, hp, hsz, hcase⟩
  refine ⟨?_, hsz⟩
  rcases hcase with ⟨hl1, _, hn, _⟩ | ⟨_, hn, _⟩
  · have h2 := totalLen_eraseIdx s.nodes i l hg
    rw [hn]
    omega
  · have h2 := totalLen_set s.nodes i l (nodeErase l p) hg
    have h3 := length_nodeErase l p hp
    rw [hn]
    omega

theorem emplace_at_effect {α : Type} (C : Nat) (s : UL α) (i p : Nat) (v : α)
    (s' : UL α) (cur : Iter) (h : emplace C s (some (i, p)) v = some (s', cur)) :
    totalLen s'.nodes = totalLen s.nodes + 1 ∧ s'.sz = s.sz + 1 := by
  rcases emplace_cases C s (some (i, p)) v s' cur h with
    ⟨hno, _, _⟩ | ⟨i', p', l, hip, hg, hsz, hcase⟩
  · exact absurd hno (by simp)
  have hii : i' = i ∧ p' = p := by
    have h1 := congrArg (fun o => o.map Prod.fst) hip
    have h2 := congrArg (fun o => o.map Prod.snd) hip
    simp at h1 h2
    exact ⟨h1.symm, h2.symm⟩
  obtain ⟨rfl, rfl⟩ := hii
  have hdec := totalLen_decomp s.nodes i' l hg
  refine ⟨?_, hsz⟩
  rcases hcase with ⟨hlt, hp, hn, _⟩ | ⟨hfull, hp, hn, _⟩ | ⟨hfull, hp1, hp2, hp3, hn, _⟩
  · have := totalLen_set s.nodes i' l (nodeInsert l p' v) hg
    have hlen := length_nodeInsert l p' v hp
    rw [hn]
    omega
  · have hhalf : C / 2 ≤ C := Nat.div_le_self C 2
    have hlen1 : (l.take (C / 2)).length = C / 2 := by
      rw [List.length_take]
      omega
    have hlen2 := length_nodeInsert (l.take (C / 2)) p' v (by omega)
    rw [hn, totalLen_append, totalLen_append, totalLen_cons, totalLen_cons, totalLen_nil,
        hdec]
    rw [hlen2, hlen1]
    simp only [List.length_drop]
    omega
  · have hhalf : C / 2 ≤ C := Nat.div_le_self C 2
    have hlen1 : (l.take (C / 2)).length = C / 2 := by
      rw [List.length_take]
      omega
    have hlen2 := length_nodeInsert (l.drop (C / 2)) (p' - C / 2) v
      (by rw [List.length_drop]; omega)
    rw [hn, totalLen_append, totalLen_append, totalLen_cons, totalLen_cons, totalLen_nil,
        hdec]
    rw [hlen2, hlen1]
    simp only [List.length_drop]
    omega

theorem lastNode_length_le_totalLen {α : Type} (ns : List (List α)) (h : ns ≠ []) :
    (lastNode ns).length ≤ totalLen ns := by
  conv_rhs => rw [← dropLast_append_lastNode ns h]
  rw [totalLen_append, totalLen_cons, totalLen_nil]
  omega

theorem totalLen_dropLast_le {α : Type} (ns : List (List α)) :
    totalLen ns.dropLast ≤ totalLen ns := by
  by_cases h : ns = []
  · subst h
    exact Nat.le_refl _
  · conv_rhs => rw [← dropLast_append_lastNode ns h]
    rw [totalLen_append]
    omega

theorem popBack_effect {α : Type} (s s' : UL α) (h : popBack s = some s') :
    (s.sz = 0 ∧ s' = s) ∨
    (s.sz ≠ 0 ∧ totalLen s'.nodes + 1 = totalLen s.nodes ∧ s'.sz = s.sz - 1) := by
  rcases popBack_cases s s' h with ⟨hz, rfl⟩ | ⟨hz, hne, hlast, hsz, hcase⟩
  · exact Or.inl ⟨hz, rfl⟩
  right
  refine ⟨hz, ?_, hsz⟩
  have htot : totalLen s.nodes = totalLen s.nodes.dropLast + (lastNode s.nodes).length := by
    conv_lhs => rw [← dropLast_append_lastNode s.nodes hne]
    rw [totalLen_append, totalLen_cons, totalLen_nil]
    omega
  have h1le : 1 ≤ (lastNode s.nodes).length := by
    rcases hll : lastNode s.nodes with _ | ⟨a, t⟩
    · exact absurd hll hlast
    · simp
  rcases hcase with ⟨hl1, _, hn⟩ | ⟨_, hn⟩
  · rw [hn]
    omega
  · rw [hn, totalLen_append, totalLen_cons, totalLen_nil, List.length_dropLast]
    omega

/-! #### Case analyses of the full-model operations -/

theorem emptyProlog_cases {α : Type} (s : ULX α) :
    (s.sz ≠ 0 ∧ emptyProlog s = s) ∨
    (s.sz = 0 ∧ s.nodes = [] ∧ emptyProlog s = ⟨[[]], Tail.last, s.sz⟩) ∨
    (s.sz = 0 ∧ s.nodes ≠ [] ∧ emptyProlog s = ⟨s.nodes, Tail.detached [[]], s.sz⟩) := by
  rcases s with ⟨ns, tl, sz⟩
  by_cases hz : sz = 0
  · rcases ns with _ | ⟨a, b⟩
    · exact Or.inr (Or.inl ⟨hz, rfl, by simp [emptyProlog, hz]⟩)
    · exact Or.inr (Or.inr ⟨hz, by simp, by simp [emptyProlog, hz]⟩)
  · exact Or.inl ⟨hz, by simp [emptyProlog, hz]⟩

theorem emptyProlog_sz {α : Type} (s : ULX α) : (emptyProlog s).sz = s.sz := by
  rcases emptyProlog_cases s with ⟨_, hp⟩ | ⟨_, _, hp⟩ | ⟨_, _, hp⟩ <;> rw [hp]

theorem emptyProlog_inv {α : Type} (s : ULX α) (hs : invX s) : invX (emptyProlog s) := by
  rw [invX] at hs ⊢
  rcases emptyProlog_cases s with ⟨_, hp⟩ | ⟨hz, _, hp⟩ | ⟨hz, _, hp⟩ <;> rw [hp]
  · exact hs
  · simp [totalLen, tailLenX]
  · have h1 : tailLenX (Tail.detached ([[]] : List (List α))) = 0 := by
      simp [tailLenX, totalLen]
    simp only [h1]
    omega

theorem backCore_cases {α : Type} (C : Nat) (v : α) (t t' : ULX α)
    (h : backCore C v t = some t') :
    (t.tl = Tail.last ∧ t.nodes ≠ [] ∧ ∃ ns',
        tailAppend C v t.nodes = some ns' ∧ t' = ⟨ns', Tail.last, t.sz + 1⟩) ∨
    (∃ ts ts', t.tl = Tail.detached ts ∧ tailAppend C v ts = some ts' ∧
        t' = ⟨t.nodes, Tail.detached ts', t.sz + 1⟩) := by
  rcases t with ⟨tn, ttl, tsz⟩
  rcases ttl with _ | ts
  · rcases tn with _ | ⟨a, b⟩
    · exact absurd h (by simp [backCore])
    · simp only [backCore] at h
      rcases Option.map_eq_some'.1 h with ⟨ns', hns', heq⟩
      exact Or.inl ⟨rfl, by simp, ns', hns', heq.symm⟩
  · simp only [backCore] at h
    rcases Option.map_eq_some'.1 h with ⟨ts', hts', heq⟩
    exact Or.inr ⟨ts, ts', rfl, hts', heq.symm⟩
  · exact absurd h (by simp [backCore])

theorem frontCore_cases {α : Type} (C : Nat) (v : α) (t t' : ULX α)
    (h : frontCore C v t = some t') :
    t.nodes ≠ [] ∧ ∃ ns', frontInsert C v t.nodes = some ns' ∧
      t' = ⟨ns', t.tl, t.sz + 1⟩ := by
  rcases t with ⟨tn, ttl, tsz⟩
  rcases tn with _ | ⟨a, b⟩
  · exact absurd h (by simp [frontCore])
  · simp only [frontCore] at h
    rcases Option.map_eq_some'.1 h with ⟨ns', hns', heq⟩
    exact ⟨by simp, ns', hns', heq.symm⟩

theorem tailLenX_last {α : Type} : tailLenX (Tail.last : Tail α) = 0 := rfl

theorem tailLenX_null {α : Type} : tailLenX (Tail.null : Tail α) = 0 := rfl

theorem tailLenX_detached {α : Type} (ts : List (List α)) :
    tailLenX (Tail.detached ts) = totalLen ts := rfl

/-! #### The full step relation

One public mutating operation of the full model, with a defined execution.
`insert`/`emplace` at `end()` delegates to `emplace_back` (covered by
`pushB`); `erase(first, last)` is a loop of single erases; constructors,
assignment and `resize` are loops of `push_back`/`pop_back` steps.  Cursors
denote positions of nodes the container still references: `(i, p)` into the
head chain for the `...At` steps, a detached-chain position for the `...Det`
steps. -/
inductive StepX (α : Type) (C : Nat) : ULX α → ULX α → Prop where
  | pushB (v : α) {s s' : ULX α} : emplaceBackX C v s = some s' → StepX α C s s'
  | pushF (v : α) {s s' : ULX α} : emplaceFrontX C v s = some s' → StepX α C s s'
  | popB {s s' : ULX α} : popBackX s = some s' → StepX α C s s'
  | popF {s s' : ULX α} : popFrontX s = some s' → StepX α C s s'
  | insAt (i p : Nat) (v : α) {s s' : ULX α} :
      emplaceAtX C s i p v = some s' → StepX α C s s'
  | insDet (i p : Nat) (v : α) {s s' : ULX α} :
      emplaceDetachedX C s i p v = some s' → StepX α C s s'
  | delAt (i p : Nat) (cur : Iter) {s s' : ULX α} :
      eraseAtX s i p = some (s', cur) → StepX α C s s'
  | delDet (i p : Nat) {s s' : ULX α} :
      eraseDetachedX s i p = some s' → StepX α C s s'
  | clr {s : ULX α} : StepX α C s (clearULX s)

/-- Any finite sequence of full-model operations from the default-constructed
container. -/
inductive ReachableX (α : Type) (C : Nat) : ULX α → Prop where
  | init : ReachableX α C (emptyULX α)
  | step {s s' : ULX α} : ReachableX α C s → StepX α C s s' → ReachableX α C s'

theorem stepX_inv {α : Type} {C : Nat} {s s' : ULX α} (h : StepX α C s s')
    (hs : invX s) : invX s' := by
  cases h with
  | pushB v h =>
    have hp := emptyProlog_inv s hs
    rcases backCore_cases C v (emptyProlog s) s' h with
      ⟨htl, hne, ns', hta, heq⟩ | ⟨ts, ts', htl, hta, heq⟩
    · subst heq
      have h1 := tailAppend_totalLen_le C v _ ns' hta
      rw [invX, htl] at hp
      show totalLen ns' + tailLenX (Tail.last : Tail α) ≤ (emptyProlog s).sz + 1
      rw [tailLenX_last] at hp ⊢
      omega
    · subst heq
      have h1 := tailAppend_totalLen_le C v ts ts' hta
      rw [invX, htl] at hp
      show totalLen (emptyProlog s).nodes + tailLenX (Tail.detached ts') ≤
        (emptyProlog s).sz + 1
      rw [tailLenX_detached] at hp ⊢
      omega
  | pushF v h =>
    have hp := emptyProlog_inv s hs
    obtain ⟨hne, ns', hfi, heq⟩ := frontCore_cases C v (emptyProlog s) s' h
    subst heq
    have h1 := frontInsert_totalLen C v _ ns' hfi hne
    rw [invX] at hp
    show totalLen ns' + tailLenX (emptyProlog s).tl ≤ (emptyProlog s).sz + 1
    omega
  | popB h =>
    rw [popBackX] at h
    by_cases hz : s.sz = 0
    · rw [if_pos hz] at h
      rw [← Option.some.inj h]
      exact hs
    · rw [if_neg hz] at h
      rcases htl : s.tl with _ | ts <;> rw [htl] at h
      · dsimp only at h
        rcases Option.map_eq_some'.1 h with ⟨t, hpb, heq⟩
        subst heq
        rcases popBack_effect ⟨s.nodes, s.sz⟩ t hpb with ⟨hz0, _⟩ | ⟨_, htot, hszt⟩
        · exact absurd hz0 hz
        · have hx : totalLen s.nodes + tailLenX s.tl ≤ s.sz := hs
          rw [htl, tailLenX_last] at hx
          have htot' : totalLen t.nodes + 1 = totalLen s.nodes := htot
          have hszt' : t.sz = s.sz - 1 := hszt
          show totalLen t.nodes + tailLenX (Tail.last : Tail α) ≤ t.sz
          rw [tailLenX_last]
          omega
      · dsimp only at h
        by_cases hemp : ts.isEmpty
        · rw [if_pos hemp] at h
          exact absurd h (by simp)
        · rw [if_neg hemp] at h
          by_cases hle : (lastNode ts).isEmpty
          · rw [if_pos hle] at h
            exact absurd h (by simp)
          · rw [if_neg hle] at h
            have hne : ts ≠ [] := fun hx => hemp (by rw [hx]; rfl)
            have hlne : lastNode ts ≠ [] := fun hx => hle (by rw [hx]; rfl)
            have h1le : 1 ≤ (lastNode ts).length := by
              rcases hll : lastNode ts with _ | ⟨a, b⟩
              · exact absurd hll hlne
              · simp
            have htot : totalLen ts = totalLen ts.dropLast + (lastNode ts).length := by
              conv_lhs => rw [← dropLast_append_lastNode ts hne]
              rw [totalLen_append, totalLen_cons, totalLen_nil]
              omega
            have hd1 : totalLen (dropLastElem ts) + 1 = totalLen ts := by
              rw [dropLastElem_eq ts hne, totalLen_append, totalLen_cons, totalLen_nil,
                  List.length_dropLast]
              omega
            have hx : totalLen s.nodes + totalLen ts ≤ s.sz := by
              have hy : totalLen s.nodes + tailLenX s.tl ≤ s.sz := hs
              rw [htl, tailLenX_detached] at hy
              exact hy
            by_cases hld : (lastNode (dropLastElem ts)).isEmpty
            · rw [if_pos hld] at h
              by_cases h2 : 2 ≤ (dropLastElem ts).length
              · rw [if_pos h2] at h
                rw [← Option.some.inj h]
                show totalLen s.nodes + tailLenX (Tail.detached (dropLastElem ts).dropLast) ≤
                  s.sz - 1
                rw [tailLenX_detached]
                have h3 := totalLen_dropLast_le (dropLastElem ts)
                omega
              · rw [if_neg h2] at h
                rw [← Option.some.inj h]
                show totalLen s.nodes + tailLenX (Tail.null : Tail α) ≤ s.sz - 1
                rw [tailLenX_null]
                omega
            · rw [if_neg hld] at h
              rw [← Option.some.inj h]
              show totalLen s.nodes + tailLenX (Tail.detached (dropLastElem ts)) ≤ s.sz - 1
              rw [tailLenX_detached]
              omega
      · exact absurd h (by simp)
  | popF h =>
    rw [popFrontX] at h
    by_cases hz : s.sz = 0
    · rw [if_pos hz] at h
      rw [← Option.some.inj h]
      exact hs
    · rw [if_neg hz] at h
      rcases hn : s.nodes with _ | ⟨l0, t⟩ <;> rw [hn] at h
      · exact absurd h (by simp)
      · rcases l0 with _ | ⟨x, h0⟩
        · exact absurd h (by simp)
        · dsimp only at h
          have hx : totalLen s.nodes + tailLenX s.tl ≤ s.sz := hs
          have hszn : totalLen s.nodes = 1 + h0.length + totalLen t := by
            rw [hn, totalLen_cons, List.length_cons]
            omega
          by_cases he : h0.isEmpty
          · rw [if_pos he] at h
            have h0e : h0 = [] := List.isEmpty_iff.1 he
            rcases t with _ | ⟨t0, tt⟩ <;> dsimp only at h
            · rw [← Option.some.inj h]
              show totalLen ([] : List (List α)) + tailLenX (Tail.last : Tail α) ≤ s.sz - 1
              rw [totalLen_nil, tailLenX_last]
              omega
            · rw [← Option.some.inj h]
              show totalLen (t0 :: tt) + tailLenX s.tl ≤ s.sz - 1
              subst h0e
              simp only [List.length_nil] at hszn
              omega
          · rw [if_neg he] at h
            rw [← Option.some.inj h]
            show totalLen (h0 :: t) + tailLenX s.tl ≤ s.sz - 1
            rw [totalLen_cons]
            omega
  | insAt i p v h =>
    rw [emplaceAtX] at h
    rcases Option.map_eq_some'.1 h with ⟨t, hemp, heq⟩
    subst heq
    obtain ⟨htot, hsz⟩ := emplace_at_effect C ⟨s.nodes, s.sz⟩ i p v t.1 t.2 hemp
    have htot' : totalLen t.1.nodes = totalLen s.nodes + 1 := htot
    have hsz' : t.1.sz = s.sz + 1 := hsz
    have hx : totalLen s.nodes + tailLenX s.tl ≤ s.sz := hs
    by_cases hcond : ((s.nodes.get? i).getD []).length = C ∧ i + 1 = s.nodes.length
    · show totalLen t.1.nodes + tailLenX
        (if ((s.nodes.get? i).getD []).length = C ∧ i + 1 = s.nodes.length then Tail.last
         else s.tl) ≤ t.1.sz
      rw [if_pos hcond, tailLenX_last]
      omega
    · show totalLen t.1.nodes + tailLenX
        (if ((s.nodes.get? i).getD []).length = C ∧ i + 1 = s.nodes.length then Tail.last
         else s.tl) ≤ t.1.sz
      rw [if_neg hcond]
      omega
  | insDet i p v h =>
    rw [emplaceDetachedX] at h
    rcases htl : s.tl with _ | ts <;> rw [htl] at h
    · exact absurd h (by simp)
    · dsimp only at h
      rcases Option.map_eq_some'.1 h with ⟨t, hemp, heq⟩
      subst heq
      obtain ⟨htot, hsz⟩ := emplace_at_effect C ⟨ts, s.sz⟩ i p v t.1 t.2 hemp
      have htot' : totalLen t.1.nodes = totalLen ts + 1 := htot
      have hsz' : t.1.sz = s.sz + 1 := hsz
      have hx : totalLen s.nodes + totalLen ts ≤ s.sz := by
        have hy : totalLen s.nodes + tailLenX s.tl ≤ s.sz := hs
        rw [htl, tailLenX_detached] at hy
        exact hy
      show totalLen s.nodes + tailLenX (Tail.detached t.1.nodes) ≤ t.1.sz
      rw [tailLenX_detached]
      omega
    · exact absurd h (by simp)
  | delAt i p cur h =>
    rw [eraseAtX] at h
    rcases Option.map_eq_some'.1 h with ⟨t, hdel, heq⟩
    obtain ⟨rfl, rfl⟩ : (⟨t.1.nodes, s.tl, t.1.sz⟩ : ULX α) = s' ∧ t.2 = cur :=
      ⟨congrArg Prod.fst heq, congrArg Prod.snd heq⟩
    obtain ⟨htot, hsz⟩ := eraseAt_effect ⟨s.nodes, s.sz⟩ t.1 i p t.2 hdel
    have htot' : totalLen t.1.nodes + 1 = totalLen s.nodes := htot
    have hsz' : t.1.sz = s.sz - 1 := hsz
    have hx : totalLen s.nodes + tailLenX s.tl ≤ s.sz := hs
    show totalLen t.1.nodes + tailLenX s.tl ≤ t.1.sz
    omega
  | delDet i p h =>
    rw [eraseDetachedX] at h
    rcases htl : s.tl with _ | ts <;> rw [htl] at h
    · exact absurd h (by simp)
    · dsimp only at h
      rcases hg : ts.get? i with _ | l <;> rw [hg] at h
      · exact absurd h (by simp)
      · dsimp only at h
        by_cases hp : p < l.length
        · rw [if_pos hp] at h
          have hx : totalLen s.nodes + totalLen ts ≤ s.sz := by
            have hy : totalLen s.nodes + tailLenX s.tl ≤ s.sz := hs
            rw [htl, tailLenX_detached] at hy
            exact hy
          have hlge := length_le_totalLen ts i l hg
          have h3 := length_nodeErase l p hp
          by_cases h0 : (nodeErase l p).length = 0
          · rw [if_pos h0] at h
            have h2 := totalLen_eraseIdx ts i l hg
            by_cases hemp : (ts.eraseIdx i).isEmpty
            · rw [if_pos hemp] at h
              rw [← Option.some.inj h]
              show totalLen s.nodes + tailLenX (Tail.null : Tail α) ≤ s.sz - 1
              rw [tailLenX_null]
              omega
            · rw [if_neg hemp] at h
              rw [← Option.some.inj h]
              show totalLen s.nodes + tailLenX (Tail.detached (ts.eraseIdx i)) ≤ s.sz - 1
              rw [tailLenX_detached]
              omega
          · rw [if_neg h0] at h
            rw [← Option.some.inj h]
            have h2 := totalLen_set ts i l (nodeErase l p) hg
            show totalLen s.nodes +
              tailLenX (Tail.detached (ts.set i (nodeErase l p))) ≤ s.sz - 1
            rw [tailLenX_detached]
            omega
        · rw [if_neg hp] at h
          exact absurd h (by simp)
    · exact absurd h (by simp)
  | clr => exact Nat.le_refl 0

/-- In every reachable full-model state, `size_` is at least the number of
elements in the nodes the container references: an insertion into a drained
container and the subsequent abandonment of detached nodes only ever push
`size_` above the referenced contents, never below. -/
theorem reachX_inv {α : Type} {C : Nat} {s : ULX α} (h : ReachableX α C s) :
    invX s := by
  induction h with
  | init => exact Nat.le_refl 0
  | step _ hstep ih => exact stepX_inv hstep ih

/-- C10: `pop_back()` and `pop_front()` on an empty container (`size_ = 0`,
whether truly node-free or holding a retained drained node) return normally
and leave the container completely unchanged — the `if (empty()) return;`
guard makes them no-ops rather than undefined behaviour. -/
theorem claim_C10 {α : Type} (s : UL α) (h : s.sz = 0) :
    popBack s = some s ∧ popFront s = some s :=
  ⟨by rw [popBack, if_pos h], by rw [popFront, if_pos h]⟩

theorem claim_C10_witness :
    (⟨[], 0⟩ : UL Nat).sz = 0 ∧
      (popBack (⟨[], 0⟩ : UL Nat) = some ⟨[], 0⟩ ∧
       popFront (⟨[], 0⟩ : UL Nat) = some ⟨[], 0⟩) :=
  ⟨rfl, claim_C10 ⟨[], 0⟩ rfl⟩

/-- C7: the concrete scenario (with the default capacity `NodeMaxSize = 10`):
from the empty container, `push_back(1), push_back(2), push_back(3),
push_front(0)` yields the sequence `[0,1,2,3]`; inserting `10` at offset 1
yields `[0,10,1,2,3]`; erasing at offset 2 yields `[0,10,2,3]`; the final
`size()` is `4`. -/
theorem claim_C7 :
    emplaceBack 10 1 (emptyUL Nat) = some ⟨[[1]], 1⟩ ∧
    emplaceBack 10 2 (⟨[[1]], 1⟩ : UL Nat) = some ⟨[[1, 2]], 2⟩ ∧
    emplaceBack 10 3 (⟨[[1, 2]], 2⟩ : UL Nat) = some ⟨[[1, 2, 3]], 3⟩ ∧
    emplaceFront 10 0 (⟨[[1, 2, 3]], 3⟩ : UL Nat) = some ⟨[[0, 1, 2, 3]], 4⟩ ∧
    (⟨[[0, 1, 2, 3]], 4⟩ : UL Nat).nodes.flatten = [0, 1, 2, 3] ∧
    emplace 10 (⟨[[0, 1, 2, 3]], 4⟩ : UL Nat) (some (0, 1)) 10 =
      some (⟨[[0, 10, 1, 2, 3]], 5⟩, some (0, 1)) ∧
    (⟨[[0, 10, 1, 2, 3]], 5⟩ : UL Nat).nodes.flatten = [0, 10, 1, 2, 3] ∧
    eraseAt (⟨[[0, 10, 1, 2, 3]], 5⟩ : UL Nat) 0 2 =
      some (⟨[[0, 10, 2, 3]], 4⟩, some (0, 2)) ∧
    (⟨[[0, 10, 2, 3]], 4⟩ : UL Nat).nodes.flatten = [0, 10, 2, 3] ∧
    (⟨[[0, 10, 2, 3]], 4⟩ : UL Nat).sz = 4 := by
  decide

/-- C6: erasing the only element of a non-head node (`i ≠ 0`) unlinks and
destroys that node (the chain loses exactly that node); erasing the only
element when the head node is the only node leaves the container empty —
`size()` becomes `0` — but the node itself is kept (the `node != head` guard
skips `destroy_node`). -/
theorem claim_C6 {α : Type} :
    (∀ (s : UL α) (i : Nat) (x : α), s.nodes.get? i = some [x] → i ≠ 0 →
      eraseAt s i 0 = some (⟨s.nodes.eraseIdx i, s.sz - 1⟩,
        if i < (s.nodes.eraseIdx i).length then some (i, 0) else none)) ∧
    (∀ (s : UL α) (x : α), s.nodes = [[x]] → s.sz = 1 →
      eraseAt s 0 0 = some (⟨[[]], 0⟩, some (0, 0))) := by
  constructor
  · intro s i x hg hi
    unfold eraseAt
    rw [hg]
    dsimp only
    rw [if_pos (by simp)]
    rw [if_pos ⟨by simp [nodeErase], hi⟩]
  · intro s x hn hz
    unfold eraseAt
    rw [hn, hz]
    rfl

theorem claim_C6_witness :
    (eraseAt (⟨[[1], [2]], 2⟩ : UL Nat) 1 0 = some (⟨[[1]], 1⟩,
       if 1 < ((⟨[[1], [2]], 2⟩ : UL Nat).nodes.eraseIdx 1).length
       then some (1, 0) else none)) ∧
    eraseAt (⟨[[5]], 1⟩ : UL Nat) 0 0 = some (⟨[[]], 0⟩, some (0, 0)) :=
  ⟨(claim_C6.1 ⟨[[1], [2]], 2⟩ 1 2 (by decide) (by decide)),
   (claim_C6.2 ⟨[[5]], 1⟩ 5 (by decide) (by decide))⟩

/-- C5 (code evaluated at the failing input): constructing from the
one-element sequence `[1]` works and forward traversal yields `[1]`, but the
very first step of the reverse traversal — `std::reverse_iterator`
dereferences `rbegin()` by decrementing the `end()` iterator, whose
`operator--` executes `current_node = current_node->prev` with
`current_node == nullptr` — is undefined (`iterDec` of the end cursor has no
defined result), so back-to-front traversal cannot yield the reversed
sequence. -/
theorem claim_C5 :
    ofList 10 [1] = some ⟨[[1]], 1⟩ ∧
    travFrom 3 ([[1]] : List (List Nat)) (beginIt [[1]]) = [1] ∧
    iterDec ([[1]] : List (List Nat)) none = none := by
  decide

/-- C1 counterexample: two reachable states refute the claimed equality of
`size()` with what the forward traversal yields.  (a) `push_back(1);
erase(begin())` retains a drained node: `size() = 0`, yet the traversal loop
from `begin()` to `end()` runs one iteration over a slot holding no element.
(b) one further `push_back(2)` is a defined insertion into the drained
container: `create_node()` leaves `head` at the drained node and the value
goes into a fresh detached tail node, so `size() = 1` while the traversal
reads no element at all. -/
theorem claim_C1_counterexample :
    (ReachableX Nat 10 ⟨[[]], Tail.last, 0⟩ ∧
      visitCount 3 ([[]] : List (List Nat)) (beginIt ([[]] : List (List Nat))) = 1 ∧
      (⟨[[]], Tail.last, 0⟩ : ULX Nat).sz = 0) ∧
    (ReachableX Nat 10 ⟨[[]], Tail.detached [[2]], 1⟩ ∧
      travFrom 3 ([[]] : List (List Nat)) (beginIt ([[]] : List (List Nat))) = [] ∧
      (⟨[[]], Tail.detached [[2]], 1⟩ : ULX Nat).sz = 1) := by
  have h1 : ReachableX Nat 10 ⟨[[1]], Tail.last, 1⟩ :=
    ReachableX.step ReachableX.init (StepX.pushB 1 (by decide))
  have h2 : ReachableX Nat 10 ⟨[[]], Tail.last, 0⟩ :=
    ReachableX.step h1 (StepX.delAt 0 0 (some (0, 0)) (by decide))
  have h3 : ReachableX Nat 10 ⟨[[]], Tail.detached [[2]], 1⟩ :=
    ReachableX.step h2 (StepX.pushB 2 (by decide))
  exact ⟨⟨h2, by decide, rfl⟩, h3, by decide, rfl⟩

/-- C1 (amended): for every container state reachable by public operations
with defined executions — including insertions applied to a container that
retains a drained node — the full forward traversal from `begin()` to
`end()` reads exactly the elements of the nodes reachable from `head`, and
`size()` is at least their number.  The claimed equality of `size()` with
what the traversal yields fails in two ways (see the counterexample): the
loop may run an iteration over the slot of a retained drained node, which
holds no element to read; and after an insertion into a drained container
the new element lives in a tail node the chain from `head` never reaches, so
`size()` strictly exceeds the number of elements the traversal reads. -/
theorem claim_C1 {α : Type} (C : Nat) (s : ULX α) (hr : ReachableX α C s) :
    travFrom (s.sz + s.nodes.length) s.nodes (beginIt s.nodes) = s.nodes.flatten ∧
    (travFrom (s.sz + s.nodes.length) s.nodes (beginIt s.nodes)).length ≤ s.sz := by
  have hinv : totalLen s.nodes + tailLenX s.tl ≤ s.sz := reachX_inv hr
  have h2 := travFrom_begin s.nodes (s.sz + s.nodes.length) (by omega)
  refine ⟨h2, ?_⟩
  rw [h2, length_flatten_eq_totalLen]
  omega

theorem claim_C1_witness :
    (travFrom ((⟨[[1]], Tail.last, 1⟩ : ULX Nat).sz +
        (⟨[[1]], Tail.last, 1⟩ : ULX Nat).nodes.length)
      (⟨[[1]], Tail.last, 1⟩ : ULX Nat).nodes
      (beginIt (⟨[[1]], Tail.last, 1⟩ : ULX Nat).nodes) =
        (⟨[[1]], Tail.last, 1⟩ : ULX Nat).nodes.flatten) ∧
    (travFrom ((⟨[[1]], Tail.last, 1⟩ : ULX Nat).sz +
        (⟨[[1]], Tail.last, 1⟩ : ULX Nat).nodes.length)
      (⟨[[1]], Tail.last, 1⟩ : ULX Nat).nodes
      (beginIt (⟨[[1]], Tail.last, 1⟩ : ULX Nat).nodes)).length ≤
      (⟨[[1]], Tail.last, 1⟩ : ULX Nat).sz :=
  claim_C1 10 ⟨[[1]], Tail.last, 1⟩
    (ReachableX.step ReachableX.init (StepX.pushB 1 (by decide)))

theorem tailAppend_isSome {α : Type} (C : Nat) (v : α) (ns : List (List α))
    (hC : (lastNode ns).length ≤ C) (h0 : 0 < C) :
    ∃ ns', tailAppend C v ns = some ns' := by
  have hdef : tailAppend C v ns =
      (if (lastNode (if (lastNode ns).length = C then ns ++ [[]] else ns)).length < C
       then some (appendLast v (if (lastNode ns).length = C then ns ++ [[]] else ns))
       else none) := rfl
  rw [hdef]
  by_cases hC2 : (lastNode ns).length = C
  · rw [if_pos hC2, lastNode_append_singleton]
    rw [if_pos (by simpa using h0)]
    exact ⟨_, rfl⟩
  · rw [if_neg hC2, if_pos (by omega)]
    exact ⟨_, rfl⟩

/-- C9: inserting at the end cursor takes the `pos == end()` fast path of
`emplace`, which is literally `emplace_back` (the same operation `push_back`
performs), and the returned cursor `iterator(tail, tail->size - 1)` addresses
the newly appended element, the last of the traversal order.  (Hypotheses:
positive capacity, a consistent empty/nonempty state — `size_ = 0` iff no
node exists — and a tail node within capacity; these hold in every state
where `push_back` itself is defined.) -/
theorem claim_C9 {α : Type} (C : Nat) (s : UL α) (v : α) (h0 : 0 < C)
    (hiff : s.sz = 0 ↔ s.nodes = []) (htail : (lastNode s.nodes).length ≤ C) :
    ∃ s', emplaceBack C v s = some s' ∧
      emplace C s none v =
        some (s', some (s'.nodes.length - 1, (lastNode s'.nodes).length - 1)) ∧
      s'.nodes.flatten = s.nodes.flatten ++ [v] ∧
      derefAt s'.nodes (s'.nodes.length - 1, (lastNode s'.nodes).length - 1) = some v := by
  have hback : ∃ s', emplaceBack C v s = some s' := by
    rcases hn : s.nodes with _ | ⟨n0, t⟩
    · rcases tailAppend_isSome C v [[]] (by simp [lastNode]) h0 with ⟨ns', hns'⟩
      refine ⟨⟨ns', s.sz + 1⟩, ?_⟩
      rw [emplaceBack, hn]
      dsimp only
      rw [if_pos (hiff.2 hn), hns']
      rfl
    · have hz : s.sz ≠ 0 := fun hx => by
        rw [hiff.1 hx] at hn
        exact absurd hn (by simp)
      rcases tailAppend_isSome C v s.nodes htail h0 with ⟨ns', hns'⟩
      refine ⟨⟨ns', s.sz + 1⟩, ?_⟩
      rw [emplaceBack, hn]
      dsimp only
      rw [if_neg hz, ← hn, hns']
      rfl
  rcases hback with ⟨s', hs'⟩
  refine ⟨s', hs', ?_, ?_, ?_⟩
  · rw [emplace, hs']
    rfl
  · exact (emplaceBack_flatten C v s s' hs').1
  · rcases emplaceBack_cases C v s s' hs' with ⟨_, ns₀, hcase, hta⟩
    have hne₀ : ns₀ ≠ [] := by
      rcases hcase with ⟨_, _, rfl⟩ | ⟨hne, _, rfl⟩
      · simp
      · exact hne
    rcases tailAppend_cases C v ns₀ s'.nodes hta hne₀ with ⟨_, _, hn'⟩ | ⟨_, hn'⟩
    · rw [hn']
      rw [lastNode_append_singleton]
      have hlen : (ns₀ ++ [[v]]).length - 1 = ns₀.length := by simp
      rw [hlen, derefAt]
      dsimp only
      rw [List.get?_concat_length]
      rfl
    · rw [hn']
      rw [lastNode_append_singleton]
      have hlen : (ns₀.dropLast ++ [lastNode ns₀ ++ [v]]).length - 1 = ns₀.dropLast.length := by
        simp
      rw [hlen, derefAt]
      dsimp only
      rw [List.get?_concat_length]
      have : (lastNode ns₀ ++ [v]).length - 1 = (lastNode ns₀).length := by simp
      rw [this]
      simp [List.get?_concat_length]

theorem claim_C9_witness :
    ∃ s', emplaceBack 2 7 (⟨[[1, 2]], 2⟩ : UL Nat) = some s' ∧
      emplace 2 (⟨[[1, 2]], 2⟩ : UL Nat) none 7 =
        some (s', some (s'.nodes.length - 1, (lastNode s'.nodes).length - 1)) ∧
      s'.nodes.flatten = (⟨[[1, 2]], 2⟩ : UL Nat).nodes.flatten ++ [7] ∧
      derefAt s'.nodes (s'.nodes.length - 1, (lastNode s'.nodes).length - 1) = some 7 :=
  claim_C9 2 ⟨[[1, 2]], 2⟩ 7 (by decide) (by decide) (by decide)

theorem nodeInsert_take_drop_low {α : Type} (l : List α) (h p : Nat) (v : α)
    (hp : p ≤ h) (hh : h ≤ l.length) :
    nodeInsert (l.take h) p v ++ l.drop h = nodeInsert l p v := by
  rw [nodeInsert, nodeInsert]
  rw [List.take_take, min_eq_left hp]
  have h1 : (l.take h).drop p = (l.drop p).take (h - p) := by
    rw [List.drop_take]
  have h2 : l.drop h = (l.drop p).drop (h - p) := by
    rw [List.drop_drop]
    congr 1
    omega
  rw [h1, h2]
  simp [List.take_append_drop]

theorem nodeInsert_take_drop_high {α : Type} (l : List α) (h p : Nat) (v : α)
    (hp : h ≤ p) (hl : p ≤ l.length) :
    l.take h ++ nodeInsert (l.drop h) (p - h) v = nodeInsert l p v := by
  rw [nodeInsert, nodeInsert]
  have h1 : (l.drop h).take (p - h) = (l.take p).drop h := by
    rw [List.drop_take]
  have h2 : (l.drop h).drop (p - h) = l.drop p := by
    rw [List.drop_drop]
    congr 1
    omega
  rw [h1, h2]
  have h3 : l.take h = (l.take p).take h := by
    rw [List.take_take, min_eq_left hp]
  rw [h3]
  rw [← List.append_assoc, List.take_append_drop]

/-- C3 counterexample: with capacity `C = 3` (odd) the full node `[5,6,7]`
split by an insert at local offset `0` produces nodes of sizes `2` and `2`
(the value lands in the lower node), not the claimed `⌊C/2⌋ = 1` and
`C - ⌊C/2⌋ + 1 = 3` in either order. -/
theorem claim_C3_counterexample :
    emplace 3 (⟨[[5, 6, 7]], 3⟩ : UL Nat) (some (0, 0)) 9 =
      some (⟨[[9, 5], [6, 7]], 4⟩, some (0, 0)) ∧
    ¬((([9, 5] : List Nat).length = 3 / 2 ∧ ([6, 7] : List Nat).length = 3 - 3 / 2 + 1) ∨
      (([9, 5] : List Nat).length = 3 - 3 / 2 + 1 ∧ ([6, 7] : List Nat).length = 3 / 2)) := by
  decide

/-- C3 (amended): inserting a value at local offset `p ≤ C` of a full node of
capacity `C ≥ 2` splits it in place into two consecutive nodes: the lower
keeps the first `⌊C/2⌋` elements (the deterministic tie-break), the upper the
rest, and the new value then goes into the lower node when `p < ⌊C/2⌋` (final
sizes `⌊C/2⌋ + 1` and `C - ⌊C/2⌋`) and into the upper node otherwise (final
sizes `⌊C/2⌋` and `C - ⌊C/2⌋ + 1`); concatenating the two nodes' contents in
order always yields the pre-split contents with the value inserted at `p`,
and the returned cursor addresses the inserted value.  The claimed final
sizes `⌊C/2⌋` and `C - ⌊C/2⌋ + 1` are correct only in the upper-node case. -/
theorem claim_C3 {α : Type} (C : Nat) (s : UL α) (i p : Nat) (l : List α) (v : α)
    (hg : s.nodes.get? i = some l) (hl : l.length = C) (hp : p ≤ C) (hC : 2 ≤ C) :
    ∃ lower upper cur,
      emplace C s (some (i, p)) v =
        some (⟨s.nodes.take i ++ [lower, upper] ++ s.nodes.drop (i + 1), s.sz + 1⟩, cur) ∧
      lower ++ upper = nodeInsert l p v ∧
      ((p < C / 2 ∧ lower = nodeInsert (l.take (C / 2)) p v ∧ upper = l.drop (C / 2) ∧
          lower.length = C / 2 + 1 ∧ upper.length = C - C / 2 ∧ cur = some (i, p)) ∨
       (C / 2 ≤ p ∧ lower = l.take (C / 2) ∧ upper = nodeInsert (l.drop (C / 2)) (p - C / 2) v ∧
          lower.length = C / 2 ∧ upper.length = C - C / 2 + 1 ∧ cur = some (i + 1, p - C / 2))) := by
  have hhalf : C / 2 ≤ C := Nat.div_le_self C 2
  have hhalf1 : 1 ≤ C / 2 := by omega
  have htklen : (l.take (C / 2)).length = C / 2 := by
    rw [List.length_take]
    omega
  have hdplen : (l.drop (C / 2)).length = C - C / 2 := by
    rw [List.length_drop, hl]
  rw [emplace]
  rw [hg]
  dsimp only
  rw [if_neg (by omega), if_pos hl]
  by_cases hplt : p < C / 2
  · rw [if_pos hplt]
    refine ⟨nodeInsert (l.take (C / 2)) p v, l.drop (C / 2), some (i, p), rfl, ?_, ?_⟩
    · exact nodeInsert_take_drop_low l (C / 2) p v (by omega) (by omega)
    · left
      refine ⟨hplt, rfl, rfl, ?_, hdplen, rfl⟩
      rw [length_nodeInsert _ _ _ (by omega), htklen]
  · rw [if_neg hplt, if_pos ⟨hhalf1, hp⟩]
    refine ⟨l.take (C / 2), nodeInsert (l.drop (C / 2)) (p - C / 2) v,
      some (i + 1, p - C / 2), rfl, ?_, ?_⟩
    · exact nodeInsert_take_drop_high l (C / 2) p v (by omega) (by omega)
    · right
      refine ⟨by omega, rfl, rfl, htklen, ?_, rfl⟩
      rw [length_nodeInsert _ _ _ (by omega), hdplen]

theorem claim_C3_witness :
    ∃ lower upper cur,
      emplace 4 (⟨[[1, 2, 3, 4]], 4⟩ : UL Nat) (some (0, 3)) 9 =
        some (⟨([] : List (List Nat)) ++ [lower, upper] ++ [], 5⟩, cur) ∧
      lower ++ upper = nodeInsert [1, 2, 3, 4] 3 9 ∧
      ((3 < 4 / 2 ∧ lower = nodeInsert ([1, 2, 3, 4].take (4 / 2)) 3 9 ∧
          upper = [1, 2, 3, 4].drop (4 / 2) ∧
          lower.length = 4 / 2 + 1 ∧ upper.length = 4 - 4 / 2 ∧ cur = some (0, 3)) ∨
       (4 / 2 ≤ 3 ∧ lower = [1, 2, 3, 4].take (4 / 2) ∧
          upper = nodeInsert ([1, 2, 3, 4].drop (4 / 2)) (3 - 4 / 2) 9 ∧
          lower.length = 4 / 2 ∧ upper.length = 4 - 4 / 2 + 1 ∧ cur = some (1, 3 - 4 / 2))) :=
  claim_C3 4 ⟨[[1, 2, 3, 4]], 4⟩ 0 3 [1, 2, 3, 4] 9 (by decide) (by decide) (by decide) (by decide)

theorem eraseIdx_eq_take_append_drop {β : Type} :
    ∀ (xs : List β) (i : Nat), xs.eraseIdx i = xs.take i ++ xs.drop (i + 1)
  | [], i => by simp [List.eraseIdx]
  | a :: t, 0 => by simp [List.eraseIdx]
  | a :: t, i + 1 => by
    simp only [List.eraseIdx, List.take, List.drop, List.cons_append, List.cons.injEq, true_and]
    exact eraseIdx_eq_take_append_drop t i

theorem set_eq_take_append_drop {β : Type} :
    ∀ (xs : List β) (i : Nat) (x y : β), xs.get? i = some x →
      xs.set i y = xs.take i ++ y :: xs.drop (i + 1)
  | [], i, x, y, h => by simp [List.get?] at h
  | a :: t, 0, x, y, h => by simp
  | a :: t, i + 1, x, y, h => by
    simp only [List.get?] at h
    simpa using set_eq_take_append_drop t i x y h

/-- C4 counterexample: erasing the last element of a surviving node does not
return the cursor of the element immediately following the removed one.  In
the single-node container `[1, 2]`, `erase` at in-node offset `1` removes `2`
— the logically last element, so the following cursor is `end()` — yet the
code returns `iterator(node, 0)`, which addresses the preceding element `1`. -/
theorem claim_C4_counterexample :
    eraseAt (⟨[[1, 2]], 2⟩ : UL Nat) 0 1 = some (⟨[[1]], 1⟩, some (0, 0)) ∧
    (some (0, 0) : Iter) ≠ (none : Iter) ∧
    derefAt ([[1]] : List (List Nat)) (0, 0) = some 1 := by
  decide

theorem take_append_len {β : Type} (A X : List β) (n : Nat) (h : A.length = n) :
    (A ++ X).take n = A := by
  subst h
  simp

theorem drop_append_len {β : Type} (A X : List β) (n : Nat) (h : A.length = n) :
    (A ++ X).drop n = X := by
  subst h
  simp

theorem eraseAt_eq_of_get {α : Type} (s : UL α) (i : Nat) (l : List α)
    (hg : s.nodes.get? i = some l) (hp : 0 < l.length) :
    eraseAt s i 0 =
      if l.length = 1 ∧ i ≠ 0 then
        some (⟨s.nodes.eraseIdx i, s.sz - 1⟩,
              if i < (s.nodes.eraseIdx i).length then some (i, 0) else none)
      else some (⟨s.nodes.set i (l.drop 1), s.sz - 1⟩, some (i, 0)) := by
  unfold eraseAt
  rw [hg]
  dsimp only
  rw [if_pos hp]
  have hde : nodeErase l 0 = l.drop 1 := by
    rw [nodeErase]
    simp
  have hlen : (nodeErase l 0).length = l.length - 1 := length_nodeErase l 0 hp
  by_cases hc : l.length = 1 ∧ i ≠ 0
  · rw [if_pos (show (nodeErase l 0).length = 0 ∧ i ≠ 0 from ⟨by omega, hc.2⟩), if_pos hc]
  · rw [if_neg (show ¬((nodeErase l 0).length = 0 ∧ i ≠ 0) from
        fun hx => hc ⟨by omega, hx.2⟩), if_neg hc, hde, ite_self]

theorem eraseSuffix_spec {α : Type} :
    ∀ (fuel : Nat) (s : UL α) (i : Nat),
      1 ≤ i → i < s.nodes.length → (∀ l ∈ s.nodes.drop i, l ≠ []) →
      totalLen (s.nodes.drop i) + 1 ≤ fuel →
      eraseRange fuel s (some (i, 0)) none =
        some (⟨s.nodes.take i, s.sz - totalLen (s.nodes.drop i)⟩, none) := by
  intro fuel
  induction fuel using Nat.strong_induction_on with
  | _ fuel ih =>
    intro s i hi hilen hwf hfuel
    rcases hg : s.nodes.get? i with _ | l
    · rw [List.get?_eq_none] at hg
      omega
    have hdropi : s.nodes.drop i = l :: s.nodes.drop (i + 1) := drop_eq_cons s.nodes i l hg
    have hlmem : l ∈ s.nodes.drop i := by
      rw [hdropi]
      simp
    have hlne : l ≠ [] := hwf l hlmem
    have hlpos : 0 < l.length := by
      cases hll : l
      · exact absurd hll hlne
      · simp [hll]
    have htotsplit : totalLen (s.nodes.drop i) = l.length + totalLen (s.nodes.drop (i + 1)) := by
      rw [hdropi, totalLen_cons]
    obtain _ | f := fuel
    · omega
    rw [eraseRange, if_neg (by simp)]
    have hEI : eraseIter s (some (i, 0)) = eraseAt s i 0 := rfl
    rw [hEI, eraseAt_eq_of_get s i l hg hlpos]
    have htake_len : (s.nodes.take i).length = i := by
      rw [List.length_take]
      omega
    by_cases hc : l.length = 1 ∧ i ≠ 0
    · rw [if_pos hc]
      dsimp only
      have hEidx : s.nodes.eraseIdx i = s.nodes.take i ++ s.nodes.drop (i + 1) :=
        eraseIdx_eq_take_append_drop s.nodes i
      rcases hdrop1 : s.nodes.drop (i + 1) with _ | ⟨l₂, rest⟩
      · have hcur : ¬ i < (s.nodes.eraseIdx i).length := by
          rw [hEidx, hdrop1, List.append_nil, htake_len]
          omega
        rw [if_neg hcur]
        obtain _ | f' := f
        · omega
        rw [eraseRange, if_pos rfl]
        have hT : totalLen (s.nodes.drop i) = 1 := by
          rw [htotsplit, hdrop1]
          simp [totalLen_nil]
          omega
        rw [hEidx, hdrop1, hT]
        simp
      · have hcur : i < (s.nodes.eraseIdx i).length := by
          rw [hEidx, hdrop1]
          simp
          omega
        rw [if_pos hcur]
        have hih := ih f (by omega) ⟨s.nodes.eraseIdx i, s.sz - 1⟩ i hi
          (by rw [hEidx, hdrop1]; simp; omega)
          (by
            intro m hm
            dsimp only at hm
            rw [hEidx, drop_append_len _ _ i htake_len] at hm
            apply hwf
            rw [hdropi]
            exact List.mem_cons_of_mem l hm)
          (by
            dsimp only
            rw [hEidx, drop_append_len _ _ i htake_len]
            omega)
        rw [hih]
        dsimp only
        rw [hEidx, take_append_len _ _ i htake_len, drop_append_len _ _ i htake_len]
        have hszeq : s.sz - 1 - totalLen (s.nodes.drop (i + 1)) =
            s.sz - totalLen (s.nodes.drop i) := by
          rw [htotsplit]
          omega
        rw [hszeq]
    · rw [if_neg hc]
      have hi0 : ¬ i = 0 := by omega
      have hl2 : 2 ≤ l.length := by
        rcases Nat.lt_or_ge l.length 2 with h2 | h2
        · exfalso
          exact hc ⟨by omega, hi0⟩
        · exact h2
      have hset : s.nodes.set i (l.drop 1) =
          s.nodes.take i ++ l.drop 1 :: s.nodes.drop (i + 1) :=
        set_eq_take_append_drop s.nodes i l (l.drop 1) hg
      have hih := ih f (by omega) ⟨s.nodes.set i (l.drop 1), s.sz - 1⟩ i hi
        (by
          rw [hset]
          dsimp only
          simp
          omega)
        (by
          intro m hm
          dsimp only at hm
          rw [hset, drop_append_len _ _ i htake_len] at hm
          rcases List.mem_cons.1 hm with rfl | hm'
          · intro hx
            have := congrArg List.length hx
            simp at this
            omega
          · apply hwf
            rw [hdropi]
            exact List.mem_cons_of_mem l hm')
        (by
          dsimp only
          rw [hset, drop_append_len _ _ i htake_len, totalLen_cons]
          simp
          omega)
      dsimp only
      rw [hih]
      dsimp only
      rw [hset, take_append_len _ _ i htake_len, drop_append_len _ _ i htake_len,
        totalLen_cons]
      have hszeq : s.sz - 1 - ((l.drop 1).length + totalLen (s.nodes.drop (i + 1))) =
          s.sz - totalLen (s.nodes.drop i) := by
        rw [htotsplit]
        simp
        omega
      rw [hszeq]

/-- C4 (amended): a single `erase(pos)` at a valid in-node cursor removes
exactly the element at `pos` (the traversal contents lose precisely that
element) and decrements `size_`; the returned cursor is the one addressing
the element immediately following the removed one only when further elements
remain at or after `pos` in the node (cursor `(node, pos)`) or when the
drained node was not the head (start of the next node, or `end()`); when the
erased offset was the last of a surviving node — or drained the head node —
the code instead returns `(node, 0)`, the start of the *same* node, which
precedes the removed position.  Consequently `erase(first, last)` removes
exactly `[first, last)` only in node-aligned cases; in particular, for
`first = (node i, 0)` with `i ≥ 1` and `last = end()` the loop removes
exactly the suffix of the chain from node `i` on, returning the end cursor. -/
theorem claim_C4 {α : Type} :
    (∀ (s : UL α) (i p : Nat) (l : List α), s.nodes.get? i = some l → p < l.length →
      ∃ s' cur, eraseAt s i p = some (s', cur) ∧
        s'.nodes.flatten =
          (s.nodes.take i).flatten ++ nodeErase l p ++ (s.nodes.drop (i + 1)).flatten ∧
        s'.sz = s.sz - 1 ∧
        (p + 1 < l.length → cur = some (i, p)) ∧
        (l.length = 1 ∧ i ≠ 0 →
          cur = if i < s'.nodes.length then some (i, 0) else none) ∧
        (p + 1 = l.length → ¬(l.length = 1 ∧ i ≠ 0) → cur = some (i, 0))) ∧
    (∀ (fuel : Nat) (s : UL α) (i : Nat), 1 ≤ i → i < s.nodes.length →
      (∀ l ∈ s.nodes.drop i, l ≠ []) → totalLen (s.nodes.drop i) + 1 ≤ fuel →
      eraseRange fuel s (some (i, 0)) none =
        some (⟨s.nodes.take i, s.sz - totalLen (s.nodes.drop i)⟩, none)) := by
  constructor
  · intro s i p l hg hp
    have hlen := length_nodeErase l p hp
    unfold eraseAt
    rw [hg]
    dsimp only
    rw [if_pos hp]
    by_cases hc : (nodeErase l p).length = 0 ∧ i ≠ 0
    · rw [if_pos hc]
      refine ⟨⟨s.nodes.eraseIdx i, s.sz - 1⟩,
        (if i < (s.nodes.eraseIdx i).length then some (i, 0) else none),
        rfl, ?_, rfl, ?_, ?_, ?_⟩
      · have hne : nodeErase l p = [] := List.length_eq_zero.1 hc.1
        rw [eraseIdx_eq_take_append_drop, hne]
        simp
      · intro h
        omega
      · intro _
        rfl
      · intro _ hx
        exact absurd ⟨by omega, hc.2⟩ hx
    · rw [if_neg hc]
      refine ⟨⟨s.nodes.set i (nodeErase l p), s.sz - 1⟩,
        some (i, if p < (nodeErase l p).length then p else 0),
        rfl, ?_, rfl, ?_, ?_, ?_⟩
      · rw [set_eq_take_append_drop s.nodes i l (nodeErase l p) hg]
        simp
      · intro h
        rw [if_pos (by omega)]
      · intro hx
        exact absurd ⟨by omega, hx.2⟩ hc
      · intro h _
        rw [if_neg (by omega)]
  · intro fuel s i h1 h2 h3 h4
    exact eraseSuffix_spec fuel s i h1 h2 h3 h4

theorem claim_C4_witness :
    (∃ s' cur, eraseAt (⟨[[1, 2], [3]], 3⟩ : UL Nat) 0 0 = some (s', cur) ∧
        s'.nodes.flatten =
          ((⟨[[1, 2], [3]], 3⟩ : UL Nat).nodes.take 0).flatten ++ nodeErase [1, 2] 0 ++
            ((⟨[[1, 2], [3]], 3⟩ : UL Nat).nodes.drop (0 + 1)).flatten ∧
        s'.sz = (⟨[[1, 2], [3]], 3⟩ : UL Nat).sz - 1 ∧
        (0 + 1 < ([1, 2] : List Nat).length → cur = some (0, 0)) ∧
        (([1, 2] : List Nat).length = 1 ∧ 0 ≠ 0 →
          cur = if 0 < s'.nodes.length then some (0, 0) else none) ∧
        (0 + 1 = ([1, 2] : List Nat).length → ¬(([1, 2] : List Nat).length = 1 ∧ 0 ≠ 0) →
          cur = some (0, 0))) ∧
    eraseRange 3 (⟨[[1], [2]], 2⟩ : UL Nat) (some (1, 0)) none =
      some (⟨(⟨[[1], [2]], 2⟩ : UL Nat).nodes.take 1,
             (⟨[[1], [2]], 2⟩ : UL Nat).sz - totalLen ((⟨[[1], [2]], 2⟩ : UL Nat).nodes.drop 1)⟩,
            none) :=
  ⟨claim_C4.1 ⟨[[1, 2], [3]], 3⟩ 0 0 [1, 2] (by decide) (by decide),
   claim_C4.2 3 ⟨[[1], [2]], 2⟩ 1 (by decide) (by decide) (by decide) (by decide)⟩

/-- Canonical cursor: either the end cursor with empty residual, or an
in-node position whose residual is the rest of the traversal from there. -/
def validCur {α : Type} (ns : List (List α)) (it : Iter) (X : List α) : Prop :=
  (it = none ∧ X = []) ∨
  (∃ i p l, it = some (i, p) ∧ ns.get? i = some l ∧ p < l.length ∧
    X = l.drop p ++ (ns.drop (i + 1)).flatten)

theorem validCur_step {α : Type} (ns : List (List α)) (hclean : ∀ l ∈ ns, l ≠ [])
    (i p : Nat) (l : List α) (x : α) (X : List α)
    (hg : ns.get? i = some l) (hp : p < l.length)
    (hX : l.drop p ++ (ns.drop (i + 1)).flatten = x :: X) :
    ∃ it', iterStep ns (i, p) = some it' ∧ validCur ns it' X := by
  have hstep : iterStep ns (i, p) =
      some (if p + 1 < l.length then some (i, p + 1)
            else if i + 1 < ns.length then some (i + 1, 0) else none) := by
    rw [iterStep, hg]
  have hdp : l.drop p = l.get ⟨p, hp⟩ :: l.drop (p + 1) :=
    drop_eq_cons l p (l.get ⟨p, hp⟩) (List.get?_eq_get hp)
  rw [hdp, List.cons_append] at hX
  have hX2 : l.drop (p + 1) ++ (ns.drop (i + 1)).flatten = X := (List.cons.injEq _ _ _ _ ▸ hX).2
  by_cases hA : p + 1 < l.length
  · refine ⟨some (i, p + 1), by rw [hstep, if_pos hA], Or.inr ⟨i, p + 1, l, rfl, hg, hA, hX2.symm⟩⟩
  · have hdrop_empty : l.drop (p + 1) = [] := List.drop_eq_nil_of_le (by omega)
    rw [hdrop_empty, List.nil_append] at hX2
    by_cases hB : i + 1 < ns.length
    · rcases hg2 : ns.get? (i + 1) with _ | l₂
      · rw [List.get?_eq_none] at hg2
        omega
      have hl₂ : l₂ ≠ [] := hclean l₂ (by
        have := drop_eq_cons ns (i + 1) l₂ hg2
        exact List.mem_of_mem_drop (by rw [this]; simp))
      have hl₂pos : 0 < l₂.length := by
        cases hll : l₂
        · exact absurd hll hl₂
        · simp [hll]
      refine ⟨some (i + 1, 0), by rw [hstep, if_neg hA, if_pos hB],
        Or.inr ⟨i + 1, 0, l₂, rfl, hg2, hl₂pos, ?_⟩⟩
      rw [← hX2, drop_eq_cons ns (i + 1) l₂ hg2]
      simp
    · refine ⟨none, by rw [hstep, if_neg hA, if_neg hB], Or.inl ⟨rfl, ?_⟩⟩
      rw [← hX2, List.drop_eq_nil_of_le (by omega)]
      rfl

theorem stdEqual_spec {α : Type} [DecidableEq α] :
    ∀ (X : List α) (fuel : Nat) (ns ms : List (List α)) (it1 it2 : Iter) (Y : List α),
      (∀ l ∈ ns, l ≠ []) → (∀ l ∈ ms, l ≠ []) →
      validCur ns it1 X → validCur ms it2 Y → X.length = Y.length →
      X.length + 1 ≤ fuel →
      stdEqual fuel ns ms it1 it2 = some (decide (X = Y)) := by
  intro X
  induction X with
  | nil =>
    intro fuel ns ms it1 it2 Y hcn hcm hv1 hv2 hlen hfuel
    have hit1 : it1 = none := by
      rcases hv1 with ⟨h, _⟩ | ⟨i, p, l, hit, hg, hp, hX⟩
      · exact h
      · exfalso
        have : l.drop p ≠ [] := by
          intro hdrop
          have hlen0 := congrArg List.length hdrop
          rw [List.length_drop] at hlen0
          simp at hlen0
          omega
        rcases hd : l.drop p with _ | ⟨a, b⟩
        · exact this hd
        · rw [hd] at hX
          simp at hX
    have hY : Y = [] := List.length_eq_zero.1 (by simpa using hlen.symm)
    obtain _ | f := fuel
    · omega
    rw [hit1, stdEqual, hY]
    simp
  | cons x X2 ihX =>
    intro fuel ns ms it1 it2 Y hcn hcm hv1 hv2 hlen hfuel
    rcases hv1 with ⟨_, hX⟩ | ⟨i, p, l, hit1, hg, hp, hX⟩
    · exact absurd hX (by simp)
    rcases hY : Y with _ | ⟨y, Y2⟩
    · rw [hY] at hlen
      simp at hlen
    subst hY
    rcases hv2 with ⟨_, hY0⟩ | ⟨j, q, m, hit2, hg2, hq, hYm⟩
    · exact absurd hY0 (by simp)
    obtain _ | f := fuel
    · omega
    subst hit1
    subst hit2
    have hdx : derefAt ns (i, p) = some (l.get ⟨p, hp⟩) := by
      rw [derefAt, hg]
      simp [List.get?_eq_get hp]
    have hdy : derefAt ms (j, q) = some (m.get ⟨q, hq⟩) := by
      rw [derefAt, hg2]
      simp [List.get?_eq_get hq]
    have hdpl : l.drop p = l.get ⟨p, hp⟩ :: l.drop (p + 1) :=
      drop_eq_cons l p (l.get ⟨p, hp⟩) (List.get?_eq_get hp)
    have hdqm : m.drop q = m.get ⟨q, hq⟩ :: m.drop (q + 1) :=
      drop_eq_cons m q (m.get ⟨q, hq⟩) (List.get?_eq_get hq)
    have hxval : l.get ⟨p, hp⟩ = x := by
      rw [hdpl] at hX
      simpa using (List.cons.injEq _ _ _ _ ▸ hX.symm).1
    have hyval : m.get ⟨q, hq⟩ = y := by
      rw [hdqm] at hYm
      simpa using (List.cons.injEq _ _ _ _ ▸ hYm).1.symm
    rw [stdEqual]
    rw [hdx, hdy]
    dsimp only
    rw [hxval, hyval]
    by_cases hxy : x = y
    · rw [if_pos hxy]
      rcases validCur_step ns hcn i p l x X2 hg hp (by rw [← hX]) with ⟨it1', hs1, hv1'⟩
      rcases validCur_step ms hcm j q m y Y2 hg2 hq (by rw [← hYm]) with ⟨it2', hs2, hv2'⟩
      rw [hs1, hs2]
      dsimp only
      have hih := ihX f ns ms it1' it2' Y2 hcn hcm hv1' hv2'
        (by simpa using hlen) (by simp at hfuel; omega)
      rw [hih]
      congr 1
      rw [decide_eq_decide]
      subst hxy
      simp
    · rw [if_neg hxy]
      have : ¬ (x :: X2 = y :: Y2) := by
        intro hx
        exact hxy (by simpa using (List.cons.injEq _ _ _ _ ▸ hx).1)
      simp [this]

theorem validCur_begin {α : Type} (ns : List (List α)) (hclean : ∀ l ∈ ns, l ≠ []) :
    validCur ns (beginIt ns) ns.flatten := by
  rcases hn : ns with _ | ⟨n0, t⟩
  · exact Or.inl ⟨rfl, rfl⟩
  · refine Or.inr ⟨0, 0, n0, rfl, rfl, ?_, by simp⟩
    have : n0 ≠ [] := hclean n0 (by rw [hn]; simp)
    cases hh : n0
    · exact absurd hh this
    · simp [hh]

/-- C8 counterexample: equality is not determined by size plus pairwise-equal
element sequences "regardless of how the elements are distributed over
nodes".  With capacity 1 the reachable container `[[],[2]]` (an empty
retained head node before the node holding `2`) and the container `[[2]]`
have equal sizes and identical element sequences, yet `operator==` walks
`std::equal` over the left range, whose first visited slot is the drained
node's unconstructed element — the comparison reads an object outside its
lifetime and has no defined `true` result. -/
theorem claim_C8_counterexample :
    Reachable Nat 1 ⟨[[], [2]], 1⟩ ∧ Reachable Nat 1 ⟨[[2]], 1⟩ ∧
    (⟨[[], [2]], 1⟩ : UL Nat).sz = (⟨[[2]], 1⟩ : UL Nat).sz ∧
    (⟨[[], [2]], 1⟩ : UL Nat).nodes.flatten = (⟨[[2]], 1⟩ : UL Nat).nodes.flatten ∧
    ulEq (⟨[[], [2]], 1⟩ : UL Nat) ⟨[[2]], 1⟩ ≠ some true ∧
    ulNe (⟨[[], [2]], 1⟩ : UL Nat) ⟨[[2]], 1⟩ ≠ some false := by
  refine ⟨?_, ?_, rfl, rfl, by decide, by decide⟩
  · have h1 : Reachable Nat 1 ⟨[[1]], 1⟩ :=
      Reachable.step Reachable.init (Step.pushBack 1 (by decide))
    have h2 : Reachable Nat 1 ⟨[[1], [2]], 2⟩ :=
      Reachable.step h1 (Step.pushBack 2 (by decide))
    exact Reachable.step h2 (Step.del 0 0 (some (0, 0)) (by decide))
  · exact Reachable.step Reachable.init (Step.pushBack 2 (by decide))

/-- C8 (amended): for containers whose chains carry no drained node (every
node nonempty — true of every state no erase/pop has drained) and whose
cached sizes are consistent, `operator==` returns `true` exactly when the
two element sequences (in traversal order, regardless of how they are
distributed over nodes) are equal — the size check catches unequal lengths
and `std::equal` compares the sequences pairwise — and `operator!=` returns
its negation.  When a drained node is present in the left chain the
comparison dereferences an unconstructed slot and the equality result is
undefined (see the counterexample). -/
theorem claim_C8 {α : Type} [DecidableEq α] (s t : UL α)
    (hs : s.sz = totalLen s.nodes) (ht : t.sz = totalLen t.nodes)
    (hcs : ∀ l ∈ s.nodes, l ≠ []) (hct : ∀ l ∈ t.nodes, l ≠ []) :
    ulEq s t = some (decide (s.nodes.flatten = t.nodes.flatten)) ∧
    ulNe s t = some (!(decide (s.nodes.flatten = t.nodes.flatten))) := by
  have hflat_s : s.nodes.flatten.length = s.sz := by
    rw [length_flatten_eq_totalLen, hs]
  have hflat_t : t.nodes.flatten.length = t.sz := by
    rw [length_flatten_eq_totalLen, ht]
  have hmain : ulEq s t = some (decide (s.nodes.flatten = t.nodes.flatten)) := by
    by_cases hsz : s.sz = t.sz
    · rw [ulEq, if_neg (by omega)]
      exact stdEqual_spec s.nodes.flatten (s.sz + s.nodes.length + 1) s.nodes t.nodes
        (beginIt s.nodes) (beginIt t.nodes) t.nodes.flatten hcs hct
        (validCur_begin s.nodes hcs) (validCur_begin t.nodes hct)
        (by omega) (by omega)
    · rw [ulEq, if_pos hsz]
      have hne : s.nodes.flatten ≠ t.nodes.flatten := by
        intro hx
        exact hsz (by rw [← hflat_s, ← hflat_t, hx])
      simp [hne]
  refine ⟨hmain, ?_⟩
  rw [ulNe, hmain]
  rfl

theorem claim_C8_witness :
    ulEq (⟨[[1], [2]], 2⟩ : UL Nat) ⟨[[1, 2]], 2⟩ =
      some (decide ((⟨[[1], [2]], 2⟩ : UL Nat).nodes.flatten =
        (⟨[[1, 2]], 2⟩ : UL Nat).nodes.flatten)) ∧
    ulNe (⟨[[1], [2]], 2⟩ : UL Nat) ⟨[[1, 2]], 2⟩ =
      some (!(decide ((⟨[[1], [2]], 2⟩ : UL Nat).nodes.flatten =
        (⟨[[1, 2]], 2⟩ : UL Nat).nodes.flatten))) :=
  claim_C8 ⟨[[1], [2]], 2⟩ ⟨[[1, 2]], 2⟩ (by decide) (by decide) (by decide) (by decide)
